import Mathlib

/-!
Verification of the interactive terminal/session core of a VS Code extension
that bridges an external MATLAB process.

The development shallowly embeds three components of the source:

* the remote evaluation session `MVM` (`src/commandwindow/MVM.ts`): request
  table, pending-user-eval counter, ready promise, state-change handling;
* the command-window line editor (`src/commandwindow/CommandWindow.ts`):
  line/cursor/selection state, history navigation, wrap-aware cursor moves;
* the section range index `LineRangeTree` and the run-section orchestration
  (`ExecutionCommandProvider.ts`).

JavaScript promises are modelled by an explicit status (`PStatus`): resolving
or rejecting an already-settled promise is a no-op, exactly as in JS.  The
random request-id generator `_getNewRequestId` is modelled by a fresh-id
counter (`nextRequestId`); only freshness of ids matters to the programme.
Event emission (`EventEmitter.emit`) is modelled by appending the event,
together with the request-table contents at the moment of emission (what a
synchronous listener can observe), to an `emittedEvents` log.  The deferred
sends registered with `_currentReadyPromise.then(...)` are modelled by a
`pendingSends` queue of (ready-generation, requestId) pairs; `mvmDeliverSend`
plays the microtask that fires such a continuation once its generation's
promise has settled (a rejected generation drops the send, matching the
ignored rejection handler in the source).
-/

/-- The connection state of MATLAB, from `enum MatlabState` in MVM.ts. -/
inductive MatlabState where
  | disconnected
  | ready
  | busy
deriving DecidableEq

/-- Status of a JS promise created by `createResolvablePromise`. -/
inductive PStatus where
  | pending
  | resolved
  | rejected
deriving DecidableEq

/-- Resolving a settled JS promise is a no-op. -/
def resolveStatus : PStatus → PStatus
  | PStatus.pending => PStatus.resolved
  | st => st

/-- Rejecting a settled JS promise is a no-op. -/
def rejectStatus : PStatus → PStatus
  | PStatus.pending => PStatus.rejected
  | st => st

/-- Event emitted by the MVM.  A `stateChanged` event records the old and new
states passed to `emit` and the contents of the request table at the moment of
emission, which is what a synchronous listener observes. -/
inductive MVMEvent where
  | stateChanged (oldState newState : MatlabState)
      (requestTableAtEmission : List (Nat × Bool))
deriving DecidableEq

/-- State of the MVM session (class `MVM` in MVM.ts).
`requestMap` holds one `(requestId, isUserEval)` entry per registered request,
mirroring `_requestMap` (whose values also carry the request's promise, here
tracked by id in `requestPromises`).  Entries are *not* removed on response,
exactly as in the source.  `readyGen`/`readyStatus` model
`_currentReadyPromise`; `staleReady` records the retired generations. -/
structure MVMState where
  requestMap : List (Nat × Bool)
  requestPromises : List (Nat × PStatus)
  pendingUserEvals : Int
  currentState : MatlabState
  currentRelease : Option String
  nextRequestId : Nat
  readyGen : Nat
  readyStatus : PStatus
  staleReady : List (Nat × PStatus)
  pendingSends : List (Nat × Nat)
  sentRequests : List Nat
  emittedEvents : List MVMEvent
deriving DecidableEq

/-- The state built by the MVM constructor: empty request table, counter 0,
state Disconnected, a fresh pending ready promise. -/
def mvmInitial : MVMState :=
  { requestMap := []
    requestPromises := []
    pendingUserEvals := 0
    currentState := MatlabState.disconnected
    currentRelease := none
    nextRequestId := 0
    readyGen := 0
    readyStatus := PStatus.pending
    staleReady := []
    pendingSends := []
    sentRequests := []
    emittedEvents := [] }

/-- `getMatlabState` from MVM.ts: Disconnected verbatim, otherwise Busy iff
`_pendingUserEvals > 0`, else Ready. -/
def getMatlabState (s : MVMState) : MatlabState :=
  if s.currentState = MatlabState.disconnected then s.currentState
  else if 0 < s.pendingUserEvals then MatlabState.busy else MatlabState.ready

/-- `eval` from MVM.ts: allocate a request id, register the entry and a pending
promise, increment the pending-user-eval count when user initiated, and attach
the send to the current ready promise.  The command text is irrelevant to the
claims and not recorded. -/
def mvmEval (s : MVMState) (isUserEval : Bool) : MVMState :=
  let requestId := s.nextRequestId
  { s with
    nextRequestId := requestId + 1
    requestMap := s.requestMap ++ [(requestId, isUserEval)]
    requestPromises := s.requestPromises ++ [(requestId, PStatus.pending)]
    pendingUserEvals :=
      if isUserEval then s.pendingUserEvals + 1 else s.pendingUserEvals
    pendingSends := s.pendingSends ++ [(s.readyGen, requestId)] }

/-- `feval` from MVM.ts: like `eval` but the entry is registered with
`isUserEval := false` and the pending-user-eval count is untouched. -/
def mvmFeval (s : MVMState) : MVMState :=
  let requestId := s.nextRequestId
  { s with
    nextRequestId := requestId + 1
    requestMap := s.requestMap ++ [(requestId, false)]
    requestPromises := s.requestPromises ++ [(requestId, PStatus.pending)]
    pendingSends := s.pendingSends ++ [(s.readyGen, requestId)] }

/-- `setBreakpoint` / `clearBreakpoint` from MVM.ts: the same deferred
request/response pattern as `feval` (entry registered with
`isUserEval := false`); the breakpoint payload is irrelevant to the claims. -/
def mvmBreakpointRequest (s : MVMState) : MVMState :=
  let requestId := s.nextRequestId
  { s with
    nextRequestId := requestId + 1
    requestMap := s.requestMap ++ [(requestId, false)]
    requestPromises := s.requestPromises ++ [(requestId, PStatus.pending)]
    pendingSends := s.pendingSends ++ [(s.readyGen, requestId)] }

/-- Settle the promise of request `id` with `f` (the single promise stored
under that id in the source; entries keep their key). -/
def setRequestStatus (l : List (Nat × PStatus)) (id : Nat)
    (f : PStatus → PStatus) : List (Nat × PStatus) :=
  l.map (fun e => if e.1 = id then (e.1, f e.2) else e)

/-- `_handleEvalResponse` from MVM.ts: unknown ids are ignored; otherwise the
count is decremented when the entry is a user eval and the promise is
resolved.  The entry is *not* removed from the request table (as in the
source). -/
def mvmHandleEvalResponse (s : MVMState) (requestId : Nat) : MVMState :=
  match s.requestMap.lookup requestId with
  | none => s
  | some isUserEval =>
    { s with
      pendingUserEvals :=
        if isUserEval then s.pendingUserEvals - 1 else s.pendingUserEvals
      requestPromises := setRequestStatus s.requestPromises requestId resolveStatus }

/-- `_handleFevalResponse` from MVM.ts: identical bookkeeping to the eval
response handler; the result payload carried by the resolution is irrelevant
to the claims. -/
def mvmHandleFevalResponse (s : MVMState) (requestId : Nat) : MVMState :=
  match s.requestMap.lookup requestId with
  | none => s
  | some isUserEval =>
    { s with
      pendingUserEvals :=
        if isUserEval then s.pendingUserEvals - 1 else s.pendingUserEvals
      requestPromises := setRequestStatus s.requestPromises requestId resolveStatus }

/-- `_handleBreakpointResponse` from MVM.ts: resolves the promise of a known
id without touching the pending-user-eval count. -/
def mvmHandleBreakpointResponse (s : MVMState) (requestId : Nat) : MVMState :=
  match s.requestMap.lookup requestId with
  | none => s
  | some _ =>
    { s with
      requestPromises := setRequestStatus s.requestPromises requestId resolveStatus }

/-- `_handleDisconnection` from MVM.ts: replace the ready promise with a fresh
pending one and reject the old one, reject the promise of every entry of the
request table and clear the table, and reset the pending-user-eval count. -/
def mvmHandleDisconnection (s : MVMState) : MVMState :=
  { s with
    readyGen := s.readyGen + 1
    readyStatus := PStatus.pending
    staleReady := s.staleReady ++ [(s.readyGen, rejectStatus s.readyStatus)]
    requestPromises := s.requestPromises.map (fun e =>
      if (s.requestMap.lookup e.1).isSome then (e.1, rejectStatus e.2) else e)
    requestMap := []
    pendingUserEvals := 0 }

/-- `_handleMatlabStateChange` from MVM.ts, in source order: record the old
state, store the new state and release, perform disconnection cleanup when the
new state is Disconnected, emit the state-changed event, and finally — only
when the new state is not Disconnected — reset the count and resolve the
ready promise. -/
def mvmHandleMatlabStateChange (s : MVMState) (newState : MatlabState)
    (release : Option String) : MVMState :=
  let oldState := s.currentState
  let s1 := { s with currentState := newState, currentRelease := release }
  let s2 := if newState = MatlabState.disconnected then mvmHandleDisconnection s1 else s1
  let s3 := { s2 with
    emittedEvents := s2.emittedEvents ++
      [MVMEvent.stateChanged oldState s2.currentState s2.requestMap] }
  if s3.currentState ≠ MatlabState.disconnected then
    { s3 with
      pendingUserEvals := 0
      readyStatus := resolveStatus s3.readyStatus }
  else s3

/-- Status of ready-promise generation `g` as observed by a continuation that
registered on it. -/
def mvmStatusOfGen (s : MVMState) (g : Nat) : PStatus :=
  if g = s.readyGen then s.readyStatus
  else (s.staleReady.lookup g).getD PStatus.pending

/-- Status of the promise stored for request `requestId`. -/
def mvmRequestStatus (s : MVMState) (requestId : Nat) : Option PStatus :=
  s.requestPromises.lookup requestId

/-- Fire the deferred send registered at ready generation `g` for request
`requestId` (the `.then` continuation of `eval`/`feval`): on a resolved
generation the request is sent; on a rejected generation the send is dropped
(the rejection handler in the source is an ignored no-op); on a pending
generation nothing happens yet. -/
def mvmDeliverSend (s : MVMState) (g requestId : Nat) : MVMState :=
  if (g, requestId) ∈ s.pendingSends then
    match mvmStatusOfGen s g with
    | PStatus.resolved =>
      { s with
        pendingSends := s.pendingSends.erase (g, requestId)
        sentRequests := s.sentRequests ++ [requestId] }
    | PStatus.rejected =>
      { s with pendingSends := s.pendingSends.erase (g, requestId) }
    | PStatus.pending => s
  else s

/-- The operations that drive the session, for reasoning about interleavings
of sends, responses and state-change notifications. -/
inductive MVMOp where
  | evalSend (isUserEval : Bool)
  | fevalSend
  | evalResponse (requestId : Nat)
  | fevalResponse (requestId : Nat)
  | stateChange (newState : MatlabState)
deriving DecidableEq

/-- Apply one operation to the session state. -/
def mvmApplyOp (s : MVMState) : MVMOp → MVMState
  | MVMOp.evalSend u => mvmEval s u
  | MVMOp.fevalSend => mvmFeval s
  | MVMOp.evalResponse rid => mvmHandleEvalResponse s rid
  | MVMOp.fevalResponse rid => mvmHandleFevalResponse s rid
  | MVMOp.stateChange st => mvmHandleMatlabStateChange s st none

/-- Run a list of operations from a state. -/
def mvmRun (s : MVMState) (ops : List MVMOp) : MVMState :=
  ops.foldl mvmApplyOp s

/-- Number of request-table entries that are user evals whose promise is still
pending (the outstanding user evals). -/
def pendingUserCount (s : MVMState) : Nat :=
  (s.requestMap.filter (fun e =>
    e.2 && decide (s.requestPromises.lookup e.1 = some PStatus.pending))).length

/-- Request ids of the response operations of a trace. -/
def responseIds : List MVMOp → List Nat
  | [] => []
  | MVMOp.evalResponse rid :: rest => rid :: responseIds rest
  | MVMOp.fevalResponse rid :: rest => rid :: responseIds rest
  | _ :: rest => responseIds rest

/- Helper lemmas about association-list lookups. -/

/-- Lookup after a key-preserving conditional map. -/
theorem lookup_condMap (l : List (Nat × PStatus)) (p : Nat → Prop)
    [DecidablePred p] (f : PStatus → PStatus) (k : Nat) :
    (l.map (fun e => if p e.1 then (e.1, f e.2) else e)).lookup k
      = (l.lookup k).map (fun st => if p k then f st else st) := by
  induction l with
  | nil => simp
  | cons e rest ih =>
    rcases e with ⟨a, st⟩
    simp only [List.map_cons]
    by_cases hp : p a
    · rw [if_pos hp]
      by_cases hk : k = a
      · subst hk
        simp [List.lookup, hp]
      · have hk' : (k == a) = false := beq_eq_false_iff_ne.mpr hk
        simp [List.lookup, hk', ih]
    · rw [if_neg hp]
      by_cases hk : k = a
      · subst hk
        simp [List.lookup, hp]
      · have hk' : (k == a) = false := beq_eq_false_iff_ne.mpr hk
        simp [List.lookup, hk', ih]

/-- Lookup in `setRequestStatus`. -/
theorem lookup_setRequestStatus (l : List (Nat × PStatus)) (id k : Nat)
    (f : PStatus → PStatus) :
    (setRequestStatus l id f).lookup k
      = (l.lookup k).map (fun st => if k = id then f st else st) :=
  lookup_condMap l (fun n => n = id) f k

/-- A key present in an association list has a successful lookup. -/
theorem lookup_isSome_of_mem {β : Type} {l : List (Nat × β)} {k : Nat} {b : β}
    (h : (k, b) ∈ l) : (l.lookup k).isSome := by
  induction l with
  | nil => simp at h
  | cons e rest ih =>
    rcases e with ⟨a, c⟩
    by_cases hk : k = a
    · subst hk
      simp [List.lookup]
    · have hk' : (k == a) = false := beq_eq_false_iff_ne.mpr hk
      simp only [List.lookup, hk']
      rcases List.mem_cons.mp h with h1 | h1
      · exact absurd (congrArg Prod.fst h1) hk
      · exact ih h1

/-- Lookup of a key absent from the prefix finds the appended binding. -/
theorem lookup_append_fresh {β : Type} (l : List (Nat × β)) (k : Nat) (b : β)
    (h : ∀ e ∈ l, e.1 ≠ k) : (l ++ [(k, b)]).lookup k = some b := by
  induction l with
  | nil => simp [List.lookup]
  | cons e rest ih =>
    have he : e.1 ≠ k := h e (by simp)
    have hk : (k == e.1) = false := beq_eq_false_iff_ne.mpr (fun hkk => he hkk.symm)
    simp only [List.cons_append, List.lookup, hk]
    exact ih (fun e' he' => h e' (List.mem_cons_of_mem e he'))

/-- Lookup of a key bound in the prefix ignores the appended binding. -/
theorem lookup_append_of_isSome {β : Type} (l m : List (Nat × β)) (k : Nat)
    (h : (l.lookup k).isSome) : (l ++ m).lookup k = l.lookup k := by
  induction l with
  | nil => simp [List.lookup] at h
  | cons e rest ih =>
    rcases e with ⟨a, c⟩
    by_cases hk : k = a
    · subst hk
      simp [List.lookup]
    · have hk' : (k == a) = false := beq_eq_false_iff_ne.mpr hk
      simp only [List.lookup, hk'] at h
      simp only [List.cons_append, List.lookup, hk']
      exact ih h

/-- C2: `getMatlabState` returns Disconnected verbatim when the stored state
is Disconnected; otherwise it returns Busy iff the pending-user-eval count is
strictly positive and Ready otherwise; and neither `feval` nor `eval` with
`isUserEval = false` changes the pending-user-eval count, so only
user-initiated evals can make the session appear Busy. -/
theorem getMatlabState_busy_derivation (s : MVMState) :
    (s.currentState = MatlabState.disconnected →
      getMatlabState s = MatlabState.disconnected) ∧
    (s.currentState ≠ MatlabState.disconnected →
      ((getMatlabState s = MatlabState.busy ↔ 0 < s.pendingUserEvals) ∧
       (getMatlabState s = MatlabState.ready ↔ ¬ 0 < s.pendingUserEvals))) ∧
    (mvmFeval s).pendingUserEvals = s.pendingUserEvals ∧
    (mvmEval s false).pendingUserEvals = s.pendingUserEvals := by
  refine ⟨fun h => by simp [getMatlabState, h], fun h => ?_,
    by simp [mvmFeval], by simp [mvmEval]⟩
  by_cases hp : 0 < s.pendingUserEvals
  · constructor
    · simp [getMatlabState, h, hp]
    · simp [getMatlabState, h, hp]
  · constructor
    · simp [getMatlabState, h, hp]
    · simp [getMatlabState, h, hp]

/-- Witness for C2 at concrete states: two pending user evals make a ready
session Busy, and a disconnected session reports Disconnected. -/
theorem getMatlabState_busy_derivation_witness :
    getMatlabState { mvmInitial with
      currentState := MatlabState.ready, pendingUserEvals := 2 } = MatlabState.busy ∧
    getMatlabState mvmInitial = MatlabState.disconnected := by
  constructor
  · exact ((getMatlabState_busy_derivation { mvmInitial with
      currentState := MatlabState.ready, pendingUserEvals := 2 }).2.1
        (by decide)).1.mpr (by decide)
  · exact (getMatlabState_busy_derivation mvmInitial).1 rfl

/-- C1: handling a Disconnected state-change rejects every outstanding
(pending) request future, empties the request table, resets the
pending-user-eval count, rejects the old ready promise and installs a fresh
pending one — all before the state-changed event is emitted, so the emitted
event observes an empty request table; and an eval issued after a subsequent
reconnection registers its send on the fresh ready generation (not the stale
one), which is resolved, so delivering the continuation actually sends the
request. -/
theorem mvm_disconnect_atomicity (s d rc e : MVMState)
    (release release' : Option String)
    (hstale : ∀ p ∈ s.staleReady, p.1 < s.readyGen)
    (hd : d = mvmHandleMatlabStateChange s MatlabState.disconnected release)
    (hrc : rc = mvmHandleMatlabStateChange d MatlabState.ready release')
    (he : e = mvmEval rc true) :
    d.requestMap = [] ∧
    d.pendingUserEvals = 0 ∧
    (∀ rid b, (rid, b) ∈ s.requestMap →
      mvmRequestStatus s rid = some PStatus.pending →
      mvmRequestStatus d rid = some PStatus.rejected) ∧
    d.readyGen = s.readyGen + 1 ∧
    d.readyStatus = PStatus.pending ∧
    d.staleReady.lookup s.readyGen = some (rejectStatus s.readyStatus) ∧
    d.emittedEvents = s.emittedEvents ++
      [MVMEvent.stateChanged s.currentState MatlabState.disconnected []] ∧
    rc.readyGen = s.readyGen + 1 ∧
    e.pendingSends = rc.pendingSends ++ [(rc.readyGen, rc.nextRequestId)] ∧
    rc.readyGen ≠ s.readyGen ∧
    mvmStatusOfGen e rc.readyGen = PStatus.resolved ∧
    (mvmDeliverSend e rc.readyGen rc.nextRequestId).sentRequests
      = e.sentRequests ++ [rc.nextRequestId] := by
  have hdval : d = { s with
      currentState := MatlabState.disconnected
      currentRelease := release
      readyGen := s.readyGen + 1
      readyStatus := PStatus.pending
      staleReady := s.staleReady ++ [(s.readyGen, rejectStatus s.readyStatus)]
      requestPromises := s.requestPromises.map (fun e =>
        if (s.requestMap.lookup e.1).isSome then (e.1, rejectStatus e.2) else e)
      requestMap := []
      pendingUserEvals := 0
      emittedEvents := s.emittedEvents ++
        [MVMEvent.stateChanged s.currentState MatlabState.disconnected []] } := by
    rw [hd]
    simp [mvmHandleMatlabStateChange, mvmHandleDisconnection]
  have hrcval : rc = { d with
      currentState := MatlabState.ready
      currentRelease := release'
      pendingUserEvals := 0
      readyStatus := resolveStatus d.readyStatus
      emittedEvents := d.emittedEvents ++
        [MVMEvent.stateChanged d.currentState MatlabState.ready d.requestMap] } := by
    rw [hrc]
    simp [mvmHandleMatlabStateChange]
  have hrcstat : rc.readyStatus = PStatus.resolved := by
    simp [hrcval, hdval, resolveStatus]
  have hrg : e.readyGen = rc.readyGen := by
    simp [he, mvmEval]
  have hrs : e.readyStatus = rc.readyStatus := by
    simp [he, mvmEval]
  have hstat : mvmStatusOfGen e rc.readyGen = PStatus.resolved := by
    rw [mvmStatusOfGen, hrg, if_pos rfl, hrs, hrcstat]
  refine ⟨by simp [hdval], by simp [hdval], ?_, by simp [hdval], by simp [hdval], ?_,
    by simp [hdval], by simp [hrcval, hdval], by simp [he, mvmEval], ?_, hstat, ?_⟩
  · intro rid b hmem hpend
    have hsome : (s.requestMap.lookup rid).isSome := lookup_isSome_of_mem hmem
    rw [mvmRequestStatus] at hpend
    rw [hdval]
    show (s.requestPromises.map (fun e =>
      if (s.requestMap.lookup e.1).isSome then (e.1, rejectStatus e.2) else e)).lookup rid
        = some PStatus.rejected
    rw [lookup_condMap s.requestPromises
      (fun n => (s.requestMap.lookup n).isSome = true) rejectStatus rid, hpend]
    simp [hsome, rejectStatus]
  · rw [hdval]
    show List.lookup s.readyGen
      (s.staleReady ++ [(s.readyGen, rejectStatus s.readyStatus)])
        = some (rejectStatus s.readyStatus)
    exact lookup_append_fresh s.staleReady s.readyGen (rejectStatus s.readyStatus)
      (fun p hp => Nat.ne_of_lt (hstale p hp))
  · rw [hrcval, hdval]
    show s.readyGen + 1 ≠ s.readyGen
    omega
  · have hmem : (rc.readyGen, rc.nextRequestId) ∈ e.pendingSends := by
      rw [he]
      simp [mvmEval]
    rw [mvmDeliverSend, if_pos hmem, hstat]

/-- Witness for C1: starting from the initial state with one outstanding user
eval (request id 0), a Disconnected state-change empties the table and rejects
the pending future. -/
theorem mvm_disconnect_atomicity_witness :
    (mvmHandleMatlabStateChange (mvmEval mvmInitial true)
      MatlabState.disconnected none).requestMap = [] ∧
    mvmRequestStatus (mvmHandleMatlabStateChange (mvmEval mvmInitial true)
      MatlabState.disconnected none) 0 = some PStatus.rejected := by
  have h := mvm_disconnect_atomicity (mvmEval mvmInitial true)
    (mvmHandleMatlabStateChange (mvmEval mvmInitial true)
      MatlabState.disconnected none)
    (mvmHandleMatlabStateChange (mvmHandleMatlabStateChange
      (mvmEval mvmInitial true) MatlabState.disconnected none)
      MatlabState.ready none)
    (mvmEval (mvmHandleMatlabStateChange (mvmHandleMatlabStateChange
      (mvmEval mvmInitial true) MatlabState.disconnected none)
      MatlabState.ready none) true)
    none none (by intro p hp; simp [mvmEval, mvmInitial] at hp) rfl rfl rfl
  exact ⟨h.1, h.2.2.1 0 true (by decide) (by decide)⟩

/-- C3 counterexample: the pending-user-eval count becomes negative.  First
interleaving: a user eval is outstanding when a (non-Disconnected) Ready
state-change arrives — the handler resets the count to 0 but leaves the
request table intact, so the subsequent matching response decrements it to
−1.  Second interleaving: because response handling never removes the request
entry, delivering the same response twice also decrements the count to −1. -/
theorem pendingUserEvals_negative_counterexample :
    (mvmRun mvmInitial
      [MVMOp.stateChange MatlabState.ready,
       MVMOp.evalSend true,
       MVMOp.stateChange MatlabState.ready,
       MVMOp.evalResponse 0]).pendingUserEvals = -1 ∧
    (mvmRun mvmInitial
      [MVMOp.stateChange MatlabState.ready,
       MVMOp.evalSend true,
       MVMOp.evalResponse 0,
       MVMOp.evalResponse 0]).pendingUserEvals = -1 := by
  constructor
  · decide
  · decide

/-- A successful lookup yields a member of the association list. -/
theorem mem_of_lookup_eq_some {β : Type} {l : List (Nat × β)} {k : Nat} {v : β}
    (h : l.lookup k = some v) : (k, v) ∈ l := by
  induction l with
  | nil => simp [List.lookup] at h
  | cons e rest ih =>
    rcases e with ⟨a, c⟩
    by_cases hk : k = a
    · subst hk
      simp only [List.lookup, beq_self_eq_true, Option.some.injEq] at h
      subst h
      exact List.mem_cons_self _ _
    · have hk' : (k == a) = false := beq_eq_false_iff_ne.mpr hk
      simp only [List.lookup, hk'] at h
      exact List.mem_cons_of_mem _ (ih h)

/-- With duplicate-free keys a key determines its value. -/
theorem value_unique_of_nodup_keys {β : Type} {l : List (Nat × β)}
    (hnd : (l.map Prod.fst).Nodup) {k : Nat} {v v' : β}
    (h : (k, v) ∈ l) (h' : (k, v') ∈ l) : v = v' := by
  induction l with
  | nil => simp at h
  | cons e rest ih =>
    rcases e with ⟨a, c⟩
    simp only [List.map_cons, List.nodup_cons] at hnd
    rcases List.mem_cons.mp h with h1 | h1 <;> rcases List.mem_cons.mp h' with h2 | h2
    · rw [Prod.mk.injEq] at h1 h2
      rw [h1.2, h2.2]
    · exfalso
      rw [Prod.mk.injEq] at h1
      exact hnd.1 (List.mem_map.mpr ⟨(k, v'), h2, h1.1⟩)
    · exfalso
      rw [Prod.mk.injEq] at h2
      exact hnd.1 (List.mem_map.mpr ⟨(k, v), h1, h2.1⟩)
    · exact ih hnd.2 h1 h2

/-- Flipping the predicate from true to false at the unique entry with key
`rid` shrinks the filtered length by one. -/
theorem filter_length_flip (l : List (Nat × Bool)) (rid : Nat) (u : Bool)
    (p q : Nat × Bool → Bool)
    (hnd : (l.map Prod.fst).Nodup)
    (hm : (rid, u) ∈ l)
    (hpq : ∀ e ∈ l, e.1 ≠ rid → p e = q e)
    (hpu : p (rid, u) = true) (hqu : q (rid, u) = false) :
    (l.filter q).length + 1 = (l.filter p).length := by
  induction l with
  | nil => simp at hm
  | cons e rest ih =>
    simp only [List.map_cons, List.nodup_cons] at hnd
    rcases List.mem_cons.mp hm with h1 | h1
    · rw [← h1] at hnd ⊢
      have hrest : ∀ e' ∈ rest, e'.1 ≠ rid := by
        intro e' he' hcontra
        exact hnd.1 (List.mem_map.mpr ⟨e', he', hcontra⟩)
      have hcongr : rest.filter p = rest.filter q :=
        List.filter_congr (fun e' he' => hpq e' (List.mem_cons_of_mem _ he') (hrest e' he'))
      simp [List.filter_cons, hpu, hqu, hcongr]
    · have hkey : e.1 ≠ rid := by
        intro hcontra
        apply hnd.1
        rw [hcontra]
        exact List.mem_map.mpr ⟨(rid, u), h1, rfl⟩
      have hpe : p e = q e := hpq e (List.mem_cons_self _ _) hkey
      have ihr := ih hnd.2 h1
        (fun e' he' hne => hpq e' (List.mem_cons_of_mem _ he') hne)
      by_cases hv : q e
      · simp [List.filter_cons, hv, ← hpe, hv, hpe ▸ hv, ihr]
      · simp only [List.filter_cons]
        rw [hpe]
        simp only [hv]
        simp only [eq_self_iff_true] at hv
        simp [hv, ihr]

/-- Invariant carried along a session trace: the pending-user-eval count
equals the number of outstanding (promise still pending) user-eval entries of
the request table; ids are fresh and duplicate-free; entries still in the
table are pending or resolved; no remaining response targets an
already-resolved promise; remaining responses are pairwise distinct; and
remaining state changes only announce Disconnected. -/
structure MVMInv (s : MVMState) (rest : List MVMOp) : Prop where
  count_eq : s.pendingUserEvals = (pendingUserCount s : Int)
  map_lt : ∀ e ∈ s.requestMap, e.1 < s.nextRequestId
  prom_lt : ∀ e ∈ s.requestPromises, e.1 < s.nextRequestId
  map_nodup : (s.requestMap.map Prod.fst).Nodup
  map_status : ∀ e ∈ s.requestMap,
    s.requestPromises.lookup e.1 = some PStatus.pending ∨
    s.requestPromises.lookup e.1 = some PStatus.resolved
  resolved_not_responded : ∀ rid ∈ responseIds rest,
    s.requestPromises.lookup rid ≠ some PStatus.resolved
  resp_nodup : (responseIds rest).Nodup
  sc_disconnect : ∀ st, MVMOp.stateChange st ∈ rest → st = MatlabState.disconnected

/-- Lookup over an append, in terms of `Option.or`. -/
theorem lookup_append_or {β : Type} (l m : List (Nat × β)) (k : Nat) :
    (l ++ m).lookup k = (l.lookup k).or (m.lookup k) := by
  induction l with
  | nil => simp [List.lookup]
  | cons e rest ih =>
    rcases e with ⟨a, c⟩
    by_cases hk : k = a
    · subst hk
      simp [List.lookup]
    · have hk' : (k == a) = false := beq_eq_false_iff_ne.mpr hk
      simp only [List.cons_append, List.lookup, hk']
      exact ih

/-- Lookup fails when no key matches. -/
theorem lookup_eq_none_of_keys_ne {β : Type} (l : List (Nat × β)) (k : Nat)
    (h : ∀ e ∈ l, e.1 ≠ k) : l.lookup k = none := by
  induction l with
  | nil => rfl
  | cons e rest ih =>
    rcases e with ⟨a, c⟩
    have ha : (k == a) = false := beq_eq_false_iff_ne.mpr
      (fun hk => (h (a, c) (List.mem_cons_self _ _)) hk.symm)
    simp only [List.lookup, ha]
    exact ih (fun e' he' => h e' (List.mem_cons_of_mem _ he'))

/-- A key-preserving conditional map preserves the key list. -/
theorem condMap_keys (l : List (Nat × PStatus)) (p : Nat → Prop)
    [DecidablePred p] (f : PStatus → PStatus) :
    ((l.map (fun e => if p e.1 then (e.1, f e.2) else e)).map Prod.fst)
      = l.map Prod.fst := by
  induction l with
  | nil => rfl
  | cons e rest ih =>
    rcases e with ⟨a, c⟩
    by_cases hp : p a
    · simp only [List.map_cons, if_pos hp]
      rw [ih]
    · simp only [List.map_cons, if_neg hp]
      rw [ih]

/-- The invariant only constrains the remaining trace positively, so it
survives dropping the head operation. -/
theorem MVMInv.weaken {s : MVMState} {op : MVMOp} {rest : List MVMOp}
    (h : MVMInv s (op :: rest)) : MVMInv s rest := by
  have hsub : ∀ rid ∈ responseIds rest, rid ∈ responseIds (op :: rest) := by
    intro rid hrid
    cases op <;> simp [responseIds, hrid]
  have hnd : (responseIds rest).Nodup := by
    have := h.resp_nodup
    cases op <;> simp [responseIds] at this ⊢ <;> tauto
  exact
    { count_eq := h.count_eq
      map_lt := h.map_lt
      prom_lt := h.prom_lt
      map_nodup := h.map_nodup
      map_status := h.map_status
      resolved_not_responded := fun rid hrid =>
        h.resolved_not_responded rid (hsub rid hrid)
      resp_nodup := hnd
      sc_disconnect := fun st hst =>
        h.sc_disconnect st (List.mem_cons_of_mem _ hst) }

/-- Sending a request (eval or feval) preserves the trace invariant: the new
entry is fresh and pending, and the count moves with the number of pending
user entries. -/
theorem mvmInv_send (s : MVMState) (rest : List MVMOp) (u : Bool)
    (h : MVMInv s rest) : MVMInv (mvmEval s u) rest := by
  set n := s.nextRequestId with hn
  have hm : (mvmEval s u).requestMap = s.requestMap ++ [(n, u)] := rfl
  have hp : (mvmEval s u).requestPromises
      = s.requestPromises ++ [(n, PStatus.pending)] := rfl
  have hnext : (mvmEval s u).nextRequestId = n + 1 := rfl
  have hpe : (mvmEval s u).pendingUserEvals
      = if u then s.pendingUserEvals + 1 else s.pendingUserEvals := rfl
  have hlookup_old : ∀ k, (s.requestPromises.lookup k).isSome →
      (s.requestPromises ++ [(n, PStatus.pending)]).lookup k
        = s.requestPromises.lookup k := by
    intro k hk
    exact lookup_append_of_isSome _ _ k hk
  have hlookup_new : (s.requestPromises ++ [(n, PStatus.pending)]).lookup n
      = some PStatus.pending := by
    apply lookup_append_fresh
    intro e he
    exact Nat.ne_of_lt (h.prom_lt e he)
  have hcount : pendingUserCount (mvmEval s u)
      = pendingUserCount s + (if u then 1 else 0) := by
    simp only [pendingUserCount, hm, hp]
    rw [List.filter_append]
    have hfc : s.requestMap.filter (fun e => e.2 && decide
        ((s.requestPromises ++ [(n, PStatus.pending)]).lookup e.1
          = some PStatus.pending))
        = s.requestMap.filter (fun e => e.2 && decide
          (s.requestPromises.lookup e.1 = some PStatus.pending)) := by
      apply List.filter_congr
      intro e he
      rcases h.map_status e he with hst | hst <;>
        rw [hlookup_old e.1 (by rw [hst]; rfl)]
    rw [hfc, List.length_append]
    congr 1
    cases u with
    | false => simp [List.filter_cons]
    | true => simp [List.filter_cons, hlookup_new]
  refine
    { count_eq := ?_
      map_lt := ?_
      prom_lt := ?_
      map_nodup := ?_
      map_status := ?_
      resolved_not_responded := ?_
      resp_nodup := h.resp_nodup
      sc_disconnect := h.sc_disconnect }
  · rw [hpe, hcount]
    have := h.count_eq
    cases u <;> simp <;> omega
  · intro e he
    rw [hm] at he
    rw [hnext]
    rcases List.mem_append.mp he with he1 | he1
    · exact Nat.lt_succ_of_lt (h.map_lt e he1)
    · simp at he1
      rw [he1]
      exact Nat.lt_succ_self n
  · intro e he
    rw [hp] at he
    rw [hnext]
    rcases List.mem_append.mp he with he1 | he1
    · exact Nat.lt_succ_of_lt (h.prom_lt e he1)
    · simp at he1
      rw [he1]
      exact Nat.lt_succ_self n
  · rw [hm, List.map_append]
    rw [List.nodup_append]
    refine ⟨h.map_nodup, by simp, ?_⟩
    intro a ha hb
    simp at hb
    rcases List.mem_map.mp ha with ⟨e, he, hfe⟩
    have := h.map_lt e he
    omega
  · intro e he
    rw [hm] at he
    rw [hp]
    rcases List.mem_append.mp he with he1 | he1
    · rcases h.map_status e he1 with hst | hst
      · left
        rw [hlookup_old e.1 (by rw [hst]; rfl), hst]
      · right
        rw [hlookup_old e.1 (by rw [hst]; rfl), hst]
    · simp at he1
      left
      rw [he1]
      exact hlookup_new
  · intro rid hrid
    rw [hp]
    intro hcontra
    rw [lookup_append_or] at hcontra
    rcases hor : s.requestPromises.lookup rid with _ | st
    · rw [hor] at hcontra
      simp [List.lookup] at hcontra
      by_cases hr : rid = n
      · rw [hr] at hcontra
        simp at hcontra
      · have hrb : (rid == n) = false := beq_eq_false_iff_ne.mpr hr
        rw [hrb] at hcontra
        simp at hcontra
    · rw [hor] at hcontra
      simp only [Option.or_some] at hcontra
      exact h.resolved_not_responded rid hrid (hor.trans hcontra)

/-- Key list of `setRequestStatus`. -/
theorem setRequestStatus_keys (l : List (Nat × PStatus)) (id : Nat)
    (f : PStatus → PStatus) :
    (setRequestStatus l id f).map Prod.fst = l.map Prod.fst :=
  condMap_keys l (fun n => n = id) f

/-- The eval and feval response handlers perform identical bookkeeping. -/
theorem fevalResponse_eq_evalResponse (s : MVMState) (rid : Nat) :
    mvmHandleFevalResponse s rid = mvmHandleEvalResponse s rid := rfl

/-- Handling a Disconnected state-change, unfolded to its effect. -/
theorem mvmStateChange_disconnected_eq (s : MVMState) (r : Option String) :
    mvmHandleMatlabStateChange s MatlabState.disconnected r = { s with
      currentState := MatlabState.disconnected
      currentRelease := r
      readyGen := s.readyGen + 1
      readyStatus := PStatus.pending
      staleReady := s.staleReady ++ [(s.readyGen, rejectStatus s.readyStatus)]
      requestPromises := s.requestPromises.map (fun e =>
        if (s.requestMap.lookup e.1).isSome then (e.1, rejectStatus e.2) else e)
      requestMap := []
      pendingUserEvals := 0
      emittedEvents := s.emittedEvents ++
        [MVMEvent.stateChanged s.currentState MatlabState.disconnected []] } := by
  simp [mvmHandleMatlabStateChange, mvmHandleDisconnection]

/-- Delivering a response for a request whose promise is not already resolved
(and that is not responded to again later) preserves the trace invariant. -/
theorem mvmInv_response (s : MVMState) (rid : Nat) (rest : List MVMOp)
    (h : MVMInv s rest)
    (hres : s.requestPromises.lookup rid ≠ some PStatus.resolved)
    (hnotin : rid ∉ responseIds rest) :
    MVMInv (mvmHandleEvalResponse s rid) rest := by
  rcases hcase : s.requestMap.lookup rid with _ | u
  · have : mvmHandleEvalResponse s rid = s := by
      unfold mvmHandleEvalResponse
      rw [hcase]
    rw [this]
    exact h
  · have hmem : (rid, u) ∈ s.requestMap := mem_of_lookup_eq_some hcase
    have hpend : s.requestPromises.lookup rid = some PStatus.pending := by
      rcases h.map_status _ hmem with hst | hst
      · exact hst
      · exact absurd hst hres
    have hval : mvmHandleEvalResponse s rid = { s with
        pendingUserEvals :=
          if u then s.pendingUserEvals - 1 else s.pendingUserEvals
        requestPromises := setRequestStatus s.requestPromises rid resolveStatus } := by
      unfold mvmHandleEvalResponse
      rw [hcase]
    have hlk_ne : ∀ k, k ≠ rid →
        (setRequestStatus s.requestPromises rid resolveStatus).lookup k
          = s.requestPromises.lookup k := by
      intro k hk
      rw [lookup_setRequestStatus]
      rcases s.requestPromises.lookup k with _ | st
      · rfl
      · simp [hk]
    have hlk_rid :
        (setRequestStatus s.requestPromises rid resolveStatus).lookup rid
          = some PStatus.resolved := by
      rw [lookup_setRequestStatus, hpend]
      simp [resolveStatus]
    rw [hval]
    refine
      { count_eq := ?_
        map_lt := h.map_lt
        prom_lt := ?_
        map_nodup := h.map_nodup
        map_status := ?_
        resolved_not_responded := ?_
        resp_nodup := h.resp_nodup
        sc_disconnect := h.sc_disconnect }
    · show (if u then s.pendingUserEvals - 1 else s.pendingUserEvals)
        = (((s.requestMap.filter (fun e => e.2 && decide
            ((setRequestStatus s.requestPromises rid resolveStatus).lookup e.1
              = some PStatus.pending))).length : Nat) : Int)
      cases u with
      | true =>
        have hflip := filter_length_flip s.requestMap rid true
          (fun e => e.2 && decide
            (s.requestPromises.lookup e.1 = some PStatus.pending))
          (fun e => e.2 && decide
            ((setRequestStatus s.requestPromises rid resolveStatus).lookup e.1
              = some PStatus.pending))
          h.map_nodup hmem
          (fun e _ hne => by simp only [hlk_ne e.1 hne])
          (by simp [hpend])
          (by simp [hlk_rid])
        have hc := h.count_eq
        rw [pendingUserCount] at hc
        rw [if_pos rfl]
        omega
      | false =>
        have hcongr : s.requestMap.filter (fun e => e.2 && decide
            ((setRequestStatus s.requestPromises rid resolveStatus).lookup e.1
              = some PStatus.pending))
            = s.requestMap.filter (fun e => e.2 && decide
              (s.requestPromises.lookup e.1 = some PStatus.pending)) := by
          apply List.filter_congr
          intro e he
          by_cases hk : e.1 = rid
          · have heq : e = (rid, e.2) := by
              rw [← hk]
            have he' : (rid, e.2) ∈ s.requestMap := heq ▸ he
            have hu : e.2 = false :=
              value_unique_of_nodup_keys h.map_nodup he' hmem
            simp [hu]
          · simp only [hlk_ne e.1 hk]
        rw [hcongr]
        have hc := h.count_eq
        rw [pendingUserCount] at hc
        simpa using hc
    · intro e he
      have hkey : e.1 ∈ (setRequestStatus s.requestPromises rid resolveStatus).map Prod.fst :=
        List.mem_map.mpr ⟨e, he, rfl⟩
      rw [setRequestStatus_keys] at hkey
      rcases List.mem_map.mp hkey with ⟨e0, he0, hk0⟩
      rw [← hk0]
      exact h.prom_lt e0 he0
    · intro e he
      by_cases hk : e.1 = rid
      · right
        rw [hk, hlk_rid]
      · rw [hlk_ne e.1 hk]
        exact h.map_status e he
    · intro rid' hrid'
      have hne : rid' ≠ rid := fun hcontra => hnotin (hcontra ▸ hrid')
      rw [hlk_ne rid' hne]
      exact h.resolved_not_responded rid' hrid'

/-- A Disconnected state-change preserves the trace invariant: the table is
cleared and the count reset, and rejecting promises cannot make one resolved. -/
theorem mvmInv_disconnect (s : MVMState) (rest : List MVMOp) (r : Option String)
    (h : MVMInv s rest) :
    MVMInv (mvmHandleMatlabStateChange s MatlabState.disconnected r) rest := by
  rw [mvmStateChange_disconnected_eq]
  refine
    { count_eq := by simp [pendingUserCount]
      map_lt := by intro e he; simp at he
      prom_lt := ?_
      map_nodup := by simp
      map_status := by intro e he; simp at he
      resolved_not_responded := ?_
      resp_nodup := h.resp_nodup
      sc_disconnect := h.sc_disconnect }
  · intro e he
    show e.1 < s.nextRequestId
    have he' : e ∈ s.requestPromises.map (fun e =>
        if (s.requestMap.lookup e.1).isSome then (e.1, rejectStatus e.2) else e) := he
    rcases List.mem_map.mp he' with ⟨e0, he0, hfe⟩
    have hkey : e.1 = e0.1 := by
      rw [← hfe]
      by_cases hp : (s.requestMap.lookup e0.1).isSome
      · simp [hp]
      · simp [hp]
    rw [hkey]
    exact h.prom_lt e0 he0
  · intro rid hrid hcontra
    show False
    rw [lookup_condMap s.requestPromises
      (fun n => (s.requestMap.lookup n).isSome = true) rejectStatus rid] at hcontra
    rcases hor : s.requestPromises.lookup rid with _ | st
    · rw [hor] at hcontra
      exact Option.noConfusion hcontra
    · rw [hor] at hcontra
      rw [Option.map_some'] at hcontra
      have hst : st = PStatus.resolved := by
        by_cases hp : (s.requestMap.lookup rid).isSome
        · rw [if_pos hp] at hcontra
          have := Option.some.inj hcontra
          cases st <;> simp [rejectStatus] at this ⊢
        · rw [if_neg hp] at hcontra
          exact Option.some.inj hcontra
      exact h.resolved_not_responded rid hrid (by rw [hor, hst])

/-- One step of any operation of a valid trace preserves the invariant. -/
theorem mvmInv_step (s : MVMState) (op : MVMOp) (rest : List MVMOp)
    (h : MVMInv s (op :: rest)) : MVMInv (mvmApplyOp s op) rest := by
  cases op with
  | evalSend u => exact mvmInv_send s rest u h.weaken
  | fevalSend =>
    show MVMInv (mvmFeval s) rest
    have hfe : mvmFeval s = mvmEval s false := rfl
    rw [hfe]
    exact mvmInv_send s rest false h.weaken
  | evalResponse rid =>
    have hres := h.resolved_not_responded rid (by simp [responseIds])
    have hni : rid ∉ responseIds rest := by
      have hnd := h.resp_nodup
      simp only [responseIds, List.nodup_cons] at hnd
      exact hnd.1
    exact mvmInv_response s rid rest h.weaken hres hni
  | fevalResponse rid =>
    show MVMInv (mvmHandleFevalResponse s rid) rest
    rw [fevalResponse_eq_evalResponse]
    have hres := h.resolved_not_responded rid (by simp [responseIds])
    have hni : rid ∉ responseIds rest := by
      have hnd := h.resp_nodup
      simp only [responseIds, List.nodup_cons] at hnd
      exact hnd.1
    exact mvmInv_response s rid rest h.weaken hres hni
  | stateChange st =>
    have hst := h.sc_disconnect st (List.mem_cons_self _ _)
    show MVMInv (mvmHandleMatlabStateChange s st none) rest
    rw [hst]
    exact mvmInv_disconnect s rest none h.weaken

/-- The invariant holds at every point of a valid trace. -/
theorem mvmInv_run (ops : List MVMOp) (s : MVMState) (h : MVMInv s ops)
    (n : Nat) : MVMInv (mvmRun s (ops.take n)) (ops.drop n) := by
  induction n generalizing s ops with
  | zero => simpa [mvmRun] using h
  | succ m ih =>
    cases ops with
    | nil => simpa [mvmRun] using h
    | cons op rest =>
      have hstep := mvmInv_step s op rest h
      simpa [mvmRun, List.take, List.drop] using ih rest (mvmApplyOp s op) hstep

/-- C3 amended: along every interleaving of eval/feval sends, at-most-once
responses, and Disconnected state-change notifications, the pending-user-eval
count equals the number of outstanding (promise still pending) user evals and
is therefore never negative.  The restriction to Disconnected state changes
and at-most-once responses is forced by the counterexample: a non-Disconnected
state-change resets the count to 0 without clearing the request table, and a
duplicated response decrements twice, either of which drives the count to
−1. -/
theorem pendingUserEvals_nonneg_amended (ops : List MVMOp)
    (hsc : ∀ st, MVMOp.stateChange st ∈ ops → st = MatlabState.disconnected)
    (hnd : (responseIds ops).Nodup) (n : Nat) :
    (mvmRun mvmInitial (ops.take n)).pendingUserEvals
      = (pendingUserCount (mvmRun mvmInitial (ops.take n)) : Int) ∧
    0 ≤ (mvmRun mvmInitial (ops.take n)).pendingUserEvals := by
  have hinit : MVMInv mvmInitial ops :=
    { count_eq := by simp [pendingUserCount, mvmInitial]
      map_lt := by intro e he; simp [mvmInitial] at he
      prom_lt := by intro e he; simp [mvmInitial] at he
      map_nodup := by simp [mvmInitial]
      map_status := by intro e he; simp [mvmInitial] at he
      resolved_not_responded := by
        intro rid hrid
        simp [mvmInitial, List.lookup]
      resp_nodup := hnd
      sc_disconnect := hsc }
  have h := mvmInv_run ops mvmInitial hinit n
  refine ⟨h.count_eq, ?_⟩
  rw [h.count_eq]
  exact Int.natCast_nonneg _

/-- Witness for the amended C3 on a concrete valid trace: disconnect, send a
user eval, deliver its response once — the count stays nonnegative. -/
theorem pendingUserEvals_nonneg_amended_witness :
    0 ≤ (mvmRun mvmInitial ([MVMOp.stateChange MatlabState.disconnected,
      MVMOp.evalSend true, MVMOp.evalResponse 0].take 3)).pendingUserEvals := by
  have h := pendingUserEvals_nonneg_amended
    [MVMOp.stateChange MatlabState.disconnected,
     MVMOp.evalSend true, MVMOp.evalResponse 0]
    (by
      intro st hst
      simp at hst
      exact hst)
    (by decide) 3
  exact h.2

/-!
Command-window line editor (`src/commandwindow/CommandWindow.ts`).

Text (JS strings) is modelled as `List Char`; JS `substring(0, b)` is
`List.take b`, `substring(a)`/`slice(a)` is `List.drop a`, and `slice(a, b)`
is `(List.take b).drop a`.  Case-insensitive comparison uses
`Char.toLower`, mirroring `toLowerCase`.  Terminal output
(`_writeEmitter.fire`) is modelled by appending the fired text to a `writes`
log in the state; the helpers that only emit escape sequences
(`_eraseExistingPromptLine`, `_moveCursorToCurrent`,
`_writeCurrentPromptLine`) are split into a pure function computing the
emitted texts and a state function appending them, since they touch no other
state.  The tab-completion bookkeeping (`_invalidateCompletionData`, pending
request number/promise) is outside the modelled fragment: it touches only
completion-cache fields that none of the verified claims mention.  Terminal
`rows` are never read by these handlers and are omitted; real terminals have
`columns > 0` (JS division by zero would yield Infinity, the Nat model is
only quoted at positive column counts). -/

/-- JS string as a character list. -/
abbrev Text := List Char

/-- The ESC character. -/
def ESCch : Char := '\x1b'

/-- Escape sequence for the plain Left arrow. -/
def AK_LEFT : Text := [ESCch, '[', 'D']

/-- Escape sequence for the plain Right arrow. -/
def AK_RIGHT : Text := [ESCch, '[', 'C']

/-- Escape sequence for cursor up. -/
def AK_UP : Text := [ESCch, '[', 'A']

/-- Escape sequence for cursor down. -/
def AK_DOWN : Text := [ESCch, '[', 'B']

/-- `MOVE_TO_POSITION_IN_LINE(n)`: jump to (1-based) column `n`. -/
def AK_MOVE_TO_POSITION_IN_LINE (n : Nat) : Text :=
  [ESCch, '['] ++ (toString n).toList ++ ['G']

/-- `CLEAR_AND_MOVE_TO_BEGINNING`. -/
def AK_CLEAR_AND_MOVE_TO_BEGINNING : Text :=
  [ESCch, '[', '0', 'G', ESCch, '[', '0', 'J']

/-- Inverse-video on. -/
def AK_INVERT_COLORS : Text := [ESCch, '[', '7', 'm']

/-- Inverse-video off. -/
def AK_RESTORE_COLORS : Text := [ESCch, '[', '2', '7', 'm']

/-- Direction of cursor movement. -/
inductive CursorDirection where
  | left
  | right
deriving DecidableEq

/-- Direction of history movement. -/
inductive HistDirection where
  | backwards
  | forwards
deriving DecidableEq

/-- Whether the selection anchor is kept in place or moved. -/
inductive AnchorPolicy where
  | move
  | keep
deriving DecidableEq

/-- Line-editor state of the command window. -/
structure CWState where
  currentPrompt : Text
  currentPromptLine : Text
  cursorIndex : Nat
  anchorIndex : Option Nat
  rawCommandHistory : List Text
  historyIndex : Nat
  lastKnownCurrentLine : Text
  filteredCommandHistory : List Text
  columns : Nat
  justTypedLastInColumn : Bool
  writes : List Text
deriving DecidableEq

/-- `_writeEmitter.fire`. -/
def fire (s : CWState) (t : Text) : CWState :=
  { s with writes := s.writes ++ [t] }

/-- `_getMaxIndexOnLine`. -/
def getMaxIndexOnLine (s : CWState) : Nat :=
  s.currentPromptLine.length - s.currentPrompt.length

/-- `_getAbsoluteIndexOnLine`. -/
def getAbsoluteIndexOnLine (s : CWState) (index : Nat) : Nat :=
  index + s.currentPrompt.length

/-- `_stripCurrentPrompt` (the source ignores its argument and slices the
current prompt line, so the argument is dropped here). -/
def stripCurrentPrompt (s : CWState) : Text :=
  s.currentPromptLine.drop s.currentPrompt.length

/-- `_updateWhetherJustTypedInLastColumn`. -/
def updateWhetherJustTypedInLastColumn (s : CWState) : CWState :=
  { s with justTypedLastInColumn :=
      decide (getAbsoluteIndexOnLine s s.cursorIndex % s.columns = 0) }

/-- Lower-casing of a text, mirroring `toLowerCase`. -/
def toLowerText (t : Text) : Text := t.map Char.toLower

/-- `_markCurrentLineChanged`: recompute the filtered history from the text
typed so far (case-insensitive prefix match), or take the raw history when the
typed text is empty; reset the history index to the end and clear the saved
live line. -/
def markCurrentLineChanged (s : CWState) : CWState :=
  let commandHistoryFilter := stripCurrentPrompt s
  let filtered :=
    if commandHistoryFilter ≠ [] then
      s.rawCommandHistory.filter (fun cmd =>
        (toLowerText commandHistoryFilter).isPrefixOf (toLowerText cmd))
    else
      s.rawCommandHistory
  { s with
    filteredCommandHistory := filtered
    historyIndex := filtered.length
    lastKnownCurrentLine := [] }

/-- `_possiblyUpdateAnchorForCursorChange` (the call to
`_updateHasSelectionContext` only notifies the host editor). -/
def possiblyUpdateAnchorForCursorChange (s : CWState) (policy : AnchorPolicy) :
    CWState × Bool :=
  match policy, s.anchorIndex with
  | AnchorPolicy.move, some _ => ({ s with anchorIndex := none }, true)
  | AnchorPolicy.move, none => (s, false)
  | AnchorPolicy.keep, none => ({ s with anchorIndex := some s.cursorIndex }, true)
  | AnchorPolicy.keep, some _ => (s, true)

/-- `_handleLeftRight`: wrap-aware cursor movement.  Crossing a column
boundary fires a move-up-plus-jump-to-last-column (Left) or a
move-down-plus-jump-to-column-0 (Right) sequence instead of a plain arrow. -/
def handleLeftRight (s : CWState) (direction : CursorDirection)
    (anchorPolicy : AnchorPolicy) : CWState × Bool :=
  match direction with
  | CursorDirection.left =>
    if s.cursorIndex ≠ 0 then
      let s1 :=
        if s.justTypedLastInColumn then
          { s with justTypedLastInColumn := false }
        else if getAbsoluteIndexOnLine s s.cursorIndex % s.columns = 0 then
          fire s (AK_UP ++ AK_MOVE_TO_POSITION_IN_LINE s.columns)
        else
          fire s AK_LEFT
      let p := possiblyUpdateAnchorForCursorChange s1 anchorPolicy
      ({ p.1 with cursorIndex := p.1.cursorIndex - 1 }, p.2)
    else (s, false)
  | CursorDirection.right =>
    if s.cursorIndex ≠ getMaxIndexOnLine s then
      let s1 :=
        if s.justTypedLastInColumn then s
        else if getAbsoluteIndexOnLine s s.cursorIndex % s.columns
            = s.columns - 1 then
          fire s (AK_DOWN ++ AK_MOVE_TO_POSITION_IN_LINE 0)
        else
          fire s AK_RIGHT
      let p := possiblyUpdateAnchorForCursorChange s1 anchorPolicy
      ({ p.1 with cursorIndex := p.1.cursorIndex + 1 }, p.2)
    else (s, false)

/-- `_removeSelection`: with no anchor or a degenerate (cursor = anchor)
selection, only clear the anchor and report the line unchanged; otherwise
remove the selected range, put the cursor at the selection start and clear the
anchor. -/
def removeSelection (s : CWState) : CWState × Bool :=
  match s.anchorIndex with
  | none => ({ s with anchorIndex := none }, false)
  | some a =>
    if s.cursorIndex = a then ({ s with anchorIndex := none }, false)
    else
      let selectionStart := getAbsoluteIndexOnLine s (min s.cursorIndex a)
      let selectionEnd := getAbsoluteIndexOnLine s (max s.cursorIndex a)
      let preSelection := s.currentPromptLine.take selectionStart
      let postSelection := s.currentPromptLine.drop selectionEnd
      ({ s with
        currentPromptLine := preSelection ++ postSelection
        cursorIndex := selectionStart - s.currentPrompt.length
        anchorIndex := none }, true)

/-- `_handleBackspace`: selection deletion takes precedence; otherwise delete
the character before the cursor (no-op at index 0). -/
def handleBackspace (s : CWState) : CWState × Bool :=
  if s.anchorIndex ≠ none then removeSelection s
  else if s.cursorIndex = 0 then (s, false)
  else
    let before := s.currentPromptLine.take
      (getAbsoluteIndexOnLine s s.cursorIndex - 1)
    let after := s.currentPromptLine.drop (getAbsoluteIndexOnLine s s.cursorIndex)
    (markCurrentLineChanged { s with
      currentPromptLine := before ++ after
      cursorIndex := s.cursorIndex - 1 }, true)

/-- `_handleDelete`: selection deletion takes precedence; otherwise delete the
character under the cursor (no-op at the end of the line). -/
def handleDelete (s : CWState) : CWState × Bool :=
  if s.anchorIndex ≠ none then removeSelection s
  else if s.cursorIndex = getMaxIndexOnLine s then (s, false)
  else
    let before := s.currentPromptLine.take (getAbsoluteIndexOnLine s s.cursorIndex)
    let after := s.currentPromptLine.drop
      (getAbsoluteIndexOnLine s s.cursorIndex + 1)
    (markCurrentLineChanged { s with currentPromptLine := before ++ after }, true)

/-- Texts emitted by `_eraseExistingPromptLine`. -/
def eraseExistingPromptLineWrites (s : CWState) : List Text :=
  let numberOfLinesBehind := getAbsoluteIndexOnLine s s.cursorIndex / s.columns
  (if numberOfLinesBehind ≠ 0
    then [(List.replicate numberOfLinesBehind AK_UP).flatten]
    else []) ++ [AK_CLEAR_AND_MOVE_TO_BEGINNING]

/-- `_eraseExistingPromptLine` (write-only). -/
def eraseExistingPromptLine (s : CWState) : CWState :=
  { s with writes := s.writes ++ eraseExistingPromptLineWrites s }

/-- Texts emitted by `_moveCursorToCurrent`. -/
def moveCursorToCurrentWrites (s : CWState)
    (lineOfInputCursorIsCurrentlyOn : Option Nat) : List Text :=
  let lineNumberCursorShouldBeOn :=
    max 1 ((getAbsoluteIndexOnLine s s.cursorIndex + s.columns - 1) / s.columns)
  let cur := max 1 (lineOfInputCursorIsCurrentlyOn.getD lineNumberCursorShouldBeOn)
  (if lineNumberCursorShouldBeOn > cur then
    [(List.replicate (lineNumberCursorShouldBeOn - cur) AK_DOWN).flatten]
  else if lineNumberCursorShouldBeOn < cur then
    [(List.replicate (cur - lineNumberCursorShouldBeOn) AK_UP).flatten]
  else []) ++
  [AK_MOVE_TO_POSITION_IN_LINE
    (getAbsoluteIndexOnLine s s.cursorIndex % s.columns + 1)]

/-- `_moveCursorToCurrent` (write-only; `Math.ceil(a / cols)` becomes
`(a + cols - 1) / cols`). -/
def moveCursorToCurrent (s : CWState)
    (lineOfInputCursorIsCurrentlyOn : Option Nat) : CWState :=
  { s with writes := s.writes
      ++ moveCursorToCurrentWrites s lineOfInputCursorIsCurrentlyOn }

/-- Texts emitted by `_writeCurrentPromptLine`: optional erase, the plain line
or its three selection segments with inverse video, then the cursor move. -/
def writeCurrentPromptLineWrites (s : CWState) (eraseExisting : Bool) :
    List Text :=
  (if eraseExisting then eraseExistingPromptLineWrites s else []) ++
  (match s.anchorIndex with
   | none => [s.currentPromptLine]
   | some a =>
     let selectionStart := s.currentPrompt.length + min s.cursorIndex a
     let selectionEnd := s.currentPrompt.length + max s.cursorIndex a
     [s.currentPromptLine.take selectionStart,
      AK_INVERT_COLORS,
      (s.currentPromptLine.take selectionEnd).drop selectionStart,
      AK_RESTORE_COLORS,
      s.currentPromptLine.drop selectionEnd]) ++
  moveCursorToCurrentWrites s
    (some ((s.currentPromptLine.length + s.columns - 1) / s.columns))

/-- `_writeCurrentPromptLine` (write-only). -/
def writeCurrentPromptLine (s : CWState) (eraseExisting : Bool) : CWState :=
  { s with writes := s.writes ++ writeCurrentPromptLineWrites s eraseExisting }

/-- `_replaceCurrentLineWithNewLine` (optional cursor index; `cursorIndex ??
this._getMaxIndexOnLine()` evaluated after the line is replaced). -/
def replaceCurrentLineWithNewLine (s : CWState) (updatedLine : Text)
    (cursorIdx : Option Nat) : CWState × Bool :=
  let s1 := eraseExistingPromptLine s
  let s2 := { s1 with currentPromptLine := updatedLine }
  let s3 := { s2 with cursorIndex := cursorIdx.getD (getMaxIndexOnLine s2) }
  let s4 := { s3 with anchorIndex := none }
  let s5 := updateWhetherJustTypedInLastColumn s4
  (writeCurrentPromptLine s5 false, false)

/-- `_getHistoryItem` (the source indexes the filtered history with `n` under
the guard `historyIndex < length`; out-of-range indexing cannot occur at the
call site and defaults to the empty text here). -/
def getHistoryItem (s : CWState) (n : Nat) : Text :=
  if s.historyIndex < s.filteredCommandHistory.length then
    s.filteredCommandHistory.getD n []
  else
    s.lastKnownCurrentLine

/-- `_handleNavigateHistory`: block at the boundaries; snapshot the live line
when leaving the end; step the index and replace the line with the history
item (or the snapshot when stepping past the newest entry). -/
def handleNavigateHistory (s : CWState) (direction : HistDirection) :
    CWState × Bool :=
  let isAtEnd := s.historyIndex = s.filteredCommandHistory.length
  let isAtBeginning := s.historyIndex = 0
  if (direction = HistDirection.backwards ∧ isAtBeginning) ∨
      (direction = HistDirection.forwards ∧ isAtEnd) then
    (s, false)
  else
    let s1 := if isAtEnd then
        { s with lastKnownCurrentLine := stripCurrentPrompt s }
      else s
    let s2 := { s1 with historyIndex :=
      if direction = HistDirection.backwards then s1.historyIndex - 1
      else s1.historyIndex + 1 }
    let line := getHistoryItem s2 s2.historyIndex
    replaceCurrentLineWithNewLine s2 (s2.currentPrompt ++ line) none

/-- `_handleLine`: an active selection is removed first (and the line
redrawn); the typed text is appended and streamed directly at the end of the
line, or spliced in with a full redraw; the line is marked changed and the
last-column flag updated. -/
def handleLine (s : CWState) (line : Text) : CWState :=
  let p := removeSelection s
  let s1 := if p.2 then writeCurrentPromptLine p.1 true else p.1
  let s2 :=
    if s1.cursorIndex = getMaxIndexOnLine s1 then
      fire { s1 with
        currentPromptLine := s1.currentPromptLine ++ line
        cursorIndex := s1.cursorIndex + line.length } line
    else
      let before := s1.currentPromptLine.take
        (getAbsoluteIndexOnLine s1 s1.cursorIndex)
      let after := s1.currentPromptLine.drop
        (getAbsoluteIndexOnLine s1 s1.cursorIndex)
      writeCurrentPromptLine { s1 with
        currentPromptLine := before ++ line ++ after
        cursorIndex := s1.cursorIndex + line.length } true
  let s3 := markCurrentLineChanged s2
  { s3 with justTypedLastInColumn :=
      decide (getAbsoluteIndexOnLine s3 s3.cursorIndex % s3.columns = 0) }

/-- Iterated Up presses (`_handleNavigateHistory(BACKWARDS)` applied `k`
times), for stating navigation order. -/
def upIter : Nat → CWState → CWState
  | 0, s => s
  | k + 1, s => upIter k (handleNavigateHistory s HistDirection.backwards).1

/-- Field effect of `_replaceCurrentLineWithNewLine` on the modelled state
(everything except the write log and the last-column flag). -/
theorem replaceCurrentLine_proj (s : CWState) (u : Text) (ci : Option Nat) :
    (replaceCurrentLineWithNewLine s u ci).1.currentPrompt = s.currentPrompt ∧
    (replaceCurrentLineWithNewLine s u ci).1.currentPromptLine = u ∧
    (replaceCurrentLineWithNewLine s u ci).1.cursorIndex
      = ci.getD (u.length - s.currentPrompt.length) ∧
    (replaceCurrentLineWithNewLine s u ci).1.anchorIndex = none ∧
    (replaceCurrentLineWithNewLine s u ci).1.historyIndex = s.historyIndex ∧
    (replaceCurrentLineWithNewLine s u ci).1.filteredCommandHistory
      = s.filteredCommandHistory ∧
    (replaceCurrentLineWithNewLine s u ci).1.rawCommandHistory
      = s.rawCommandHistory ∧
    (replaceCurrentLineWithNewLine s u ci).1.lastKnownCurrentLine
      = s.lastKnownCurrentLine ∧
    (replaceCurrentLineWithNewLine s u ci).1.columns = s.columns :=
  ⟨rfl, rfl, rfl, rfl, rfl, rfl, rfl, rfl, rfl⟩

/-- Effect of one Up press when not at the oldest entry and the history index
is within the filtered sequence. -/
theorem navigateBackwards_proj (s : CWState)
    (h0 : s.historyIndex ≠ 0)
    (hle : s.historyIndex ≤ s.filteredCommandHistory.length) :
    (handleNavigateHistory s HistDirection.backwards).1.historyIndex
      = s.historyIndex - 1 ∧
    (handleNavigateHistory s HistDirection.backwards).1.currentPrompt
      = s.currentPrompt ∧
    (handleNavigateHistory s HistDirection.backwards).1.filteredCommandHistory
      = s.filteredCommandHistory ∧
    (handleNavigateHistory s HistDirection.backwards).1.rawCommandHistory
      = s.rawCommandHistory ∧
    (handleNavigateHistory s HistDirection.backwards).1.lastKnownCurrentLine
      = (if s.historyIndex = s.filteredCommandHistory.length
        then stripCurrentPrompt s else s.lastKnownCurrentLine) ∧
    (handleNavigateHistory s HistDirection.backwards).1.currentPromptLine
      = s.currentPrompt ++
        s.filteredCommandHistory.getD (s.historyIndex - 1) [] := by
  have h1 : s.historyIndex - 1 < s.filteredCommandHistory.length := by omega
  have hpos : 0 < s.filteredCommandHistory.length := by omega
  have hne : s.filteredCommandHistory ≠ [] := by
    intro hc
    rw [hc] at hpos
    simp at hpos
  by_cases hEnd : s.historyIndex = s.filteredCommandHistory.length
  · simp [handleNavigateHistory, replaceCurrentLineWithNewLine,
      updateWhetherJustTypedInLastColumn, writeCurrentPromptLine,
      eraseExistingPromptLine, getHistoryItem, h0, hEnd, h1, hpos, hne]
  · simp [handleNavigateHistory, replaceCurrentLineWithNewLine,
      updateWhetherJustTypedInLastColumn, writeCurrentPromptLine,
      eraseExistingPromptLine, getHistoryItem, h0, hEnd, h1, hpos, hne]

/-- Effect of one Down press when not at the live line. -/
theorem navigateForwards_proj (s : CWState)
    (h0 : s.historyIndex ≠ s.filteredCommandHistory.length) :
    (handleNavigateHistory s HistDirection.forwards).1.historyIndex
      = s.historyIndex + 1 ∧
    (handleNavigateHistory s HistDirection.forwards).1.currentPrompt
      = s.currentPrompt ∧
    (handleNavigateHistory s HistDirection.forwards).1.filteredCommandHistory
      = s.filteredCommandHistory ∧
    (handleNavigateHistory s HistDirection.forwards).1.rawCommandHistory
      = s.rawCommandHistory ∧
    (handleNavigateHistory s HistDirection.forwards).1.lastKnownCurrentLine
      = s.lastKnownCurrentLine ∧
    (handleNavigateHistory s HistDirection.forwards).1.currentPromptLine
      = s.currentPrompt ++
        (if s.historyIndex + 1 < s.filteredCommandHistory.length
          then s.filteredCommandHistory.getD (s.historyIndex + 1) []
          else s.lastKnownCurrentLine) := by
  by_cases hlt : s.historyIndex + 1 < s.filteredCommandHistory.length
  · simp [handleNavigateHistory, replaceCurrentLineWithNewLine,
      updateWhetherJustTypedInLastColumn, writeCurrentPromptLine,
      eraseExistingPromptLine, getHistoryItem, h0, hlt]
  · simp [handleNavigateHistory, replaceCurrentLineWithNewLine,
      updateWhetherJustTypedInLastColumn, writeCurrentPromptLine,
      eraseExistingPromptLine, getHistoryItem, h0, hlt]

/-- C4: for partial text typed at the live prompt line with at least one
matching history entry, pressing Up and then Down restores the live line to
exactly the typed text — not an empty line and not a history entry.  Down past
the newest entry is the inverse of the first Up with respect to the live
line. -/
theorem history_up_down_restores_line (s : CWState) (t : Text)
    (hline : s.currentPromptLine = s.currentPrompt ++ t)
    (hidx : s.historyIndex = s.filteredCommandHistory.length)
    (hne : s.filteredCommandHistory ≠ []) :
    (handleNavigateHistory (handleNavigateHistory s
        HistDirection.backwards).1 HistDirection.forwards).1.currentPromptLine
      = s.currentPrompt ++ t ∧
    stripCurrentPrompt (handleNavigateHistory (handleNavigateHistory s
        HistDirection.backwards).1 HistDirection.forwards).1 = t := by
  have hlen : s.filteredCommandHistory.length ≠ 0 := by
    intro hc
    exact hne (List.eq_nil_of_length_eq_zero hc)
  have h0 : s.historyIndex ≠ 0 := by omega
  have hstrip : stripCurrentPrompt s = t := by
    rw [stripCurrentPrompt, hline]
    exact List.drop_left _ _
  obtain ⟨hb_idx, hb_prompt, hb_filt, hb_raw, hb_lk, hb_line⟩ :=
    navigateBackwards_proj s h0 (le_of_eq hidx)
  have hr0 : (handleNavigateHistory s HistDirection.backwards).1.historyIndex
      ≠ (handleNavigateHistory s
        HistDirection.backwards).1.filteredCommandHistory.length := by
    rw [hb_idx, hb_filt]
    omega
  obtain ⟨hf_idx, hf_prompt, hf_filt, hf_raw, hf_lk, hf_line⟩ :=
    navigateForwards_proj (handleNavigateHistory s HistDirection.backwards).1 hr0
  have hcond : ¬ ((handleNavigateHistory s
        HistDirection.backwards).1.historyIndex + 1
      < (handleNavigateHistory s
        HistDirection.backwards).1.filteredCommandHistory.length) := by
    rw [hb_idx, hb_filt]
    omega
  have hmain : (handleNavigateHistory (handleNavigateHistory s
      HistDirection.backwards).1 HistDirection.forwards).1.currentPromptLine
        = s.currentPrompt ++ t := by
    rw [hf_line, if_neg hcond, hb_prompt, hb_lk, if_pos hidx, hstrip]
  refine ⟨hmain, ?_⟩
  rw [stripCurrentPrompt, hmain, hf_prompt, hb_prompt]
  exact List.drop_left _ _

/-- Witness for C4: typing "ab" over history ["abc"], Up then Down yields
back exactly "ab". -/
theorem history_up_down_restores_line_witness :
    (handleNavigateHistory (handleNavigateHistory
      { currentPrompt := ">> ".toList
        currentPromptLine := ">> ab".toList
        cursorIndex := 2
        anchorIndex := none
        rawCommandHistory := ["abc".toList]
        historyIndex := 1
        lastKnownCurrentLine := []
        filteredCommandHistory := ["abc".toList]
        columns := 80
        justTypedLastInColumn := false
        writes := [] }
      HistDirection.backwards).1 HistDirection.forwards).1.currentPromptLine
      = ">> ab".toList := by
  have h := history_up_down_restores_line
    { currentPrompt := ">> ".toList
      currentPromptLine := ">> ab".toList
      cursorIndex := 2
      anchorIndex := none
      rawCommandHistory := ["abc".toList]
      historyIndex := 1
      lastKnownCurrentLine := []
      filteredCommandHistory := ["abc".toList]
      columns := 80
      justTypedLastInColumn := false
      writes := [] }
    "ab".toList (by decide) (by decide) (by decide)
  exact h.1

/-- Unfolding an iterated Up press from the far end. -/
theorem upIter_succ' (k : Nat) (s : CWState) :
    upIter (k + 1) s
      = (handleNavigateHistory (upIter k s) HistDirection.backwards).1 := by
  induction k generalizing s with
  | zero => rfl
  | succ m ih =>
    show upIter (m + 1) (handleNavigateHistory s HistDirection.backwards).1
      = (handleNavigateHistory (upIter (m + 1) s) HistDirection.backwards).1
    rw [ih]
    rfl

/-- Iterated Up presses from the live line walk the filtered history in
most-recent-first order: the k-th press shows entry `length - k`. -/
theorem upIter_proj (s0 : CWState) (k : Nat)
    (hidx : s0.historyIndex = s0.filteredCommandHistory.length)
    (hk1 : 1 ≤ k) (hk2 : k ≤ s0.filteredCommandHistory.length) :
    (upIter k s0).historyIndex = s0.filteredCommandHistory.length - k ∧
    (upIter k s0).currentPrompt = s0.currentPrompt ∧
    (upIter k s0).filteredCommandHistory = s0.filteredCommandHistory ∧
    (upIter k s0).currentPromptLine = s0.currentPrompt ++
      s0.filteredCommandHistory.getD
        (s0.filteredCommandHistory.length - k) [] := by
  induction k with
  | zero => omega
  | succ m ih =>
    rcases Nat.eq_zero_or_pos m with hm | hm
    · subst hm
      have h0 : s0.historyIndex ≠ 0 := by omega
      obtain ⟨hb_idx, hb_prompt, hb_filt, hb_raw, hb_lk, hb_line⟩ :=
        navigateBackwards_proj s0 h0 (le_of_eq hidx)
      rw [upIter_succ' 0 s0]
      simp only [upIter]
      refine ⟨?_, hb_prompt, hb_filt, ?_⟩
      · rw [hb_idx, hidx]
      · rw [hb_line, hidx]
    · have hm2 : m ≤ s0.filteredCommandHistory.length := by omega
      obtain ⟨hu_idx, hu_prompt, hu_filt, hu_line⟩ := ih hm hm2
      have h0 : (upIter m s0).historyIndex ≠ 0 := by
        rw [hu_idx]
        omega
      have hle : (upIter m s0).historyIndex
          ≤ (upIter m s0).filteredCommandHistory.length := by
        rw [hu_idx, hu_filt]
        omega
      obtain ⟨hb_idx, hb_prompt, hb_filt, hb_raw, hb_lk, hb_line⟩ :=
        navigateBackwards_proj (upIter m s0) h0 hle
      rw [upIter_succ' m s0]
      refine ⟨?_, ?_, ?_, ?_⟩
      · rw [hb_idx, hu_idx]
        omega
      · rw [hb_prompt, hu_prompt]
      · rw [hb_filt, hu_filt]
      · rw [hb_line, hu_prompt, hu_filt, hu_idx]
        have harith : s0.filteredCommandHistory.length - m - 1
            = s0.filteredCommandHistory.length - (m + 1) := by omega
        rw [harith]

/-- C5: for every raw history and text typed at the live line, Up/Down
navigation visits exactly the raw entries with the typed text as a
case-insensitive prefix, in most-recent-first order on Up; entries without
the prefix are never shown; with empty typed text the full raw history is
navigated. -/
theorem history_prefix_filter_navigation (s : CWState) (t : Text)
    (hline : s.currentPromptLine = s.currentPrompt ++ t) :
    (t ≠ [] → (markCurrentLineChanged s).filteredCommandHistory
      = s.rawCommandHistory.filter (fun cmd =>
          (toLowerText t).isPrefixOf (toLowerText cmd))) ∧
    (t = [] → (markCurrentLineChanged s).filteredCommandHistory
      = s.rawCommandHistory) ∧
    (∀ cmd ∈ (markCurrentLineChanged s).filteredCommandHistory, t ≠ [] →
      (toLowerText t).isPrefixOf (toLowerText cmd)) ∧
    (∀ k, 1 ≤ k →
      k ≤ (markCurrentLineChanged s).filteredCommandHistory.length →
      (upIter k (markCurrentLineChanged s)).currentPromptLine
        = s.currentPrompt ++ (markCurrentLineChanged s).filteredCommandHistory.getD
            ((markCurrentLineChanged s).filteredCommandHistory.length - k) []) := by
  have hstrip : stripCurrentPrompt s = t := by
    rw [stripCurrentPrompt, hline]
    exact List.drop_left _ _
  have hfilt : (markCurrentLineChanged s).filteredCommandHistory
      = if t ≠ [] then s.rawCommandHistory.filter (fun cmd =>
          (toLowerText t).isPrefixOf (toLowerText cmd))
        else s.rawCommandHistory := by
    rw [markCurrentLineChanged]
    by_cases ht : t ≠ []
    · simp only [hstrip, if_pos ht]
    · simp only [hstrip, if_neg ht]
  have hidx : (markCurrentLineChanged s).historyIndex
      = (markCurrentLineChanged s).filteredCommandHistory.length := rfl
  have hprompt : (markCurrentLineChanged s).currentPrompt = s.currentPrompt := rfl
  refine ⟨?_, ?_, ?_, ?_⟩
  · intro ht
    rw [hfilt, if_pos ht]
  · intro ht
    rw [hfilt]
    simp [ht]
  · intro cmd hcmd ht
    rw [hfilt, if_pos ht] at hcmd
    exact (List.mem_filter.mp hcmd).2
  · intro k hk1 hk2
    obtain ⟨hui, hup, huf, hul⟩ := upIter_proj (markCurrentLineChanged s) k hidx hk1 hk2
    rw [hul, hprompt]

/-- Witness for C5 on the spec's example: raw history
["foo=1", "bar=2", "foobar=3"], typed text "foo" — the first Up shows
"foobar=3", the second shows "foo=1", and "bar=2" is not in the filtered
sequence. -/
theorem history_prefix_filter_navigation_witness :
    (upIter 1 (markCurrentLineChanged
      { currentPrompt := ">> ".toList
        currentPromptLine := ">> foo".toList
        cursorIndex := 3
        anchorIndex := none
        rawCommandHistory := ["foo=1".toList, "bar=2".toList, "foobar=3".toList]
        historyIndex := 3
        lastKnownCurrentLine := []
        filteredCommandHistory := ["foo=1".toList, "bar=2".toList, "foobar=3".toList]
        columns := 80
        justTypedLastInColumn := false
        writes := [] })).currentPromptLine = ">> foobar=3".toList ∧
    (upIter 2 (markCurrentLineChanged
      { currentPrompt := ">> ".toList
        currentPromptLine := ">> foo".toList
        cursorIndex := 3
        anchorIndex := none
        rawCommandHistory := ["foo=1".toList, "bar=2".toList, "foobar=3".toList]
        historyIndex := 3
        lastKnownCurrentLine := []
        filteredCommandHistory := ["foo=1".toList, "bar=2".toList, "foobar=3".toList]
        columns := 80
        justTypedLastInColumn := false
        writes := [] })).currentPromptLine = ">> foo=1".toList ∧
    "bar=2".toList ∉ (markCurrentLineChanged
      { currentPrompt := ">> ".toList
        currentPromptLine := ">> foo".toList
        cursorIndex := 3
        anchorIndex := none
        rawCommandHistory := ["foo=1".toList, "bar=2".toList, "foobar=3".toList]
        historyIndex := 3
        lastKnownCurrentLine := []
        filteredCommandHistory := ["foo=1".toList, "bar=2".toList, "foobar=3".toList]
        columns := 80
        justTypedLastInColumn := false
        writes := [] }).filteredCommandHistory := by
  have h := history_prefix_filter_navigation
    { currentPrompt := ">> ".toList
      currentPromptLine := ">> foo".toList
      cursorIndex := 3
      anchorIndex := none
      rawCommandHistory := ["foo=1".toList, "bar=2".toList, "foobar=3".toList]
      historyIndex := 3
      lastKnownCurrentLine := []
      filteredCommandHistory := ["foo=1".toList, "bar=2".toList, "foobar=3".toList]
      columns := 80
      justTypedLastInColumn := false
      writes := [] }
    "foo".toList (by decide)
  refine ⟨?_, ?_, ?_⟩
  · have h1 := h.2.2.2 1 (by decide) (by rw [h.1 (by decide)]; decide)
    rw [h1, h.1 (by decide)]
    decide
  · have h2 := h.2.2.2 2 (by decide) (by rw [h.1 (by decide)]; decide)
    rw [h2, h.1 (by decide)]
    decide
  · rw [h.1 (by decide)]
    decide

/-- Take of an append at the length of the first part. -/
theorem take_append_of_length {α : Type} (l₁ l₂ : List α) (n : Nat)
    (h : l₁.length = n) : (l₁ ++ l₂).take n = l₁ := by
  subst h
  exact List.take_left _ _

/-- Drop of an append at the length of the first part. -/
theorem drop_append_of_length {α : Type} (l₁ l₂ : List α) (n : Nat)
    (h : l₁.length = n) : (l₁ ++ l₂).drop n = l₂ := by
  subst h
  exact List.drop_left _ _

/-- C6: with an active non-degenerate selection, Backspace, Delete, and plain
character insertion all remove exactly the selected half-open range
[min(cursor, anchor), max(cursor, anchor)), leave the cursor at the
selection's start, and clear the anchor — regardless of the direction the
selection was created. -/
theorem selection_delete_precedence (s : CWState) (a : Nat)
    (ha : s.anchorIndex = some a) (hne : a ≠ s.cursorIndex)
    (hc : s.cursorIndex ≤ getMaxIndexOnLine s)
    (hA : a ≤ getMaxIndexOnLine s)
    (hplen : s.currentPrompt.length ≤ s.currentPromptLine.length) :
    ((handleBackspace s).1.currentPromptLine
        = s.currentPromptLine.take (min s.cursorIndex a + s.currentPrompt.length)
          ++ s.currentPromptLine.drop
            (max s.cursorIndex a + s.currentPrompt.length) ∧
      (handleBackspace s).1.cursorIndex = min s.cursorIndex a ∧
      (handleBackspace s).1.anchorIndex = none) ∧
    ((handleDelete s).1.currentPromptLine
        = s.currentPromptLine.take (min s.cursorIndex a + s.currentPrompt.length)
          ++ s.currentPromptLine.drop
            (max s.cursorIndex a + s.currentPrompt.length) ∧
      (handleDelete s).1.cursorIndex = min s.cursorIndex a ∧
      (handleDelete s).1.anchorIndex = none) ∧
    (∀ ins : Text,
      (handleLine s ins).currentPromptLine
        = s.currentPromptLine.take (min s.cursorIndex a + s.currentPrompt.length)
          ++ ins ++ s.currentPromptLine.drop
            (max s.cursorIndex a + s.currentPrompt.length) ∧
      (handleLine s ins).cursorIndex = min s.cursorIndex a + ins.length ∧
      (handleLine s ins).anchorIndex = none) := by
  have hcna : s.cursorIndex ≠ a := fun h => hne h.symm
  have hanne : s.anchorIndex ≠ none := by
    rw [ha]
    simp
  have hrs : removeSelection s
      = ({ s with
          currentPromptLine :=
            s.currentPromptLine.take
              (min s.cursorIndex a + s.currentPrompt.length)
              ++ s.currentPromptLine.drop
                (max s.cursorIndex a + s.currentPrompt.length)
          cursorIndex := min s.cursorIndex a
          anchorIndex := none }, true) := by
    simp [removeSelection, ha, hcna, getAbsoluteIndexOnLine, Nat.add_sub_cancel]
  have hmax : getMaxIndexOnLine s
      = s.currentPromptLine.length - s.currentPrompt.length := rfl
  have hlo : min s.cursorIndex a + s.currentPrompt.length
      ≤ s.currentPromptLine.length := by
    rw [hmax] at hc hA
    omega
  have hhi : max s.cursorIndex a + s.currentPrompt.length
      ≤ s.currentPromptLine.length := by
    rw [hmax] at hc hA
    omega
  have hlen_take : (s.currentPromptLine.take
      (min s.cursorIndex a + s.currentPrompt.length)).length
      = min s.cursorIndex a + s.currentPrompt.length := by
    rw [List.length_take]
    omega
  refine ⟨?_, ?_, ?_⟩
  · simp only [handleBackspace]
    rw [if_pos hanne, hrs]
    exact ⟨rfl, rfl, rfl⟩
  · simp only [handleDelete]
    rw [if_pos hanne, hrs]
    exact ⟨rfl, rfl, rfl⟩
  · intro ins
    rcases Nat.lt_or_ge (max s.cursorIndex a + s.currentPrompt.length)
        s.currentPromptLine.length with hlt | hge
    · -- the selection ends strictly before the end of the line: splice branch
      have hTBlen : (s.currentPromptLine.take
            (min s.cursorIndex a + s.currentPrompt.length)
          ++ s.currentPromptLine.drop
            (max s.cursorIndex a + s.currentPrompt.length)).length
          = (min s.cursorIndex a + s.currentPrompt.length)
            + (s.currentPromptLine.length
              - (max s.cursorIndex a + s.currentPrompt.length)) := by
        rw [List.length_append, hlen_take, List.length_drop]
      have hmin2 := min_eq_left hlo
      have hcond2 : ¬ (min s.cursorIndex a
          = min s.cursorIndex a + s.currentPrompt.length
            + (s.currentPromptLine.length
              - (max s.cursorIndex a + s.currentPrompt.length))
            - s.currentPrompt.length) := by omega
      have hbefore := take_append_of_length
        (s.currentPromptLine.take (min s.cursorIndex a + s.currentPrompt.length))
        (s.currentPromptLine.drop (max s.cursorIndex a + s.currentPrompt.length))
        (min s.cursorIndex a + s.currentPrompt.length) hlen_take
      have hafter := drop_append_of_length
        (s.currentPromptLine.take (min s.cursorIndex a + s.currentPrompt.length))
        (s.currentPromptLine.drop (max s.cursorIndex a + s.currentPrompt.length))
        (min s.cursorIndex a + s.currentPrompt.length) hlen_take
      refine ⟨?_, ?_, ?_⟩ <;>
        simp [handleLine, hrs, writeCurrentPromptLine, markCurrentLineChanged,
          updateWhetherJustTypedInLastColumn, getMaxIndexOnLine,
          getAbsoluteIndexOnLine, fire, hmin2, hcond2, hbefore, hafter]
    · -- the selection reaches the end of the line: append branch
      have heq : max s.cursorIndex a + s.currentPrompt.length
          = s.currentPromptLine.length := by omega
      have hdrop : s.currentPromptLine.drop
          (max s.cursorIndex a + s.currentPrompt.length) = [] := by
        apply List.drop_eq_nil_of_le
        omega
      refine ⟨?_, ?_, ?_⟩ <;>
        simp [handleLine, hrs, writeCurrentPromptLine, markCurrentLineChanged,
          updateWhetherJustTypedInLastColumn, getMaxIndexOnLine,
          getAbsoluteIndexOnLine, fire, hdrop, hlen_take]

/-- Witness for C6: in ">> hello" with cursor 1 and anchor 4 (a selection made
rightwards), Backspace yields ">> ho" with the cursor at 1 and no anchor. -/
theorem selection_delete_precedence_witness :
    (handleBackspace
      { currentPrompt := ">> ".toList
        currentPromptLine := ">> hello".toList
        cursorIndex := 1
        anchorIndex := some 4
        rawCommandHistory := []
        historyIndex := 0
        lastKnownCurrentLine := []
        filteredCommandHistory := []
        columns := 80
        justTypedLastInColumn := false
        writes := [] }).1.currentPromptLine = ">> ho".toList := by
  have h := selection_delete_precedence
    { currentPrompt := ">> ".toList
      currentPromptLine := ">> hello".toList
      cursorIndex := 1
      anchorIndex := some 4
      rawCommandHistory := []
      historyIndex := 0
      lastKnownCurrentLine := []
      filteredCommandHistory := []
      columns := 80
      justTypedLastInColumn := false
      writes := [] }
    4 (by decide) (by decide) (by decide) (by decide) (by decide)
  exact h.1.1.trans (by decide)

/-- C10: with a degenerate selection (anchor set and equal to the cursor),
Backspace deletes no character: it only clears the anchor and leaves the line
text and cursor unchanged — unlike the no-anchor case, where Backspace at the
same cursor position deletes the character before the cursor. -/
theorem degenerate_selection_backspace (s : CWState) :
    (s.anchorIndex = some s.cursorIndex →
      (handleBackspace s).1 = { s with anchorIndex := none } ∧
      (handleBackspace s).2 = false ∧
      (handleBackspace s).1.currentPromptLine = s.currentPromptLine ∧
      (handleBackspace s).1.cursorIndex = s.cursorIndex) ∧
    (s.anchorIndex = none → s.cursorIndex ≠ 0 →
      (handleBackspace s).1.currentPromptLine
        = s.currentPromptLine.take (s.cursorIndex + s.currentPrompt.length - 1)
          ++ s.currentPromptLine.drop (s.cursorIndex + s.currentPrompt.length) ∧
      (handleBackspace s).1.cursorIndex = s.cursorIndex - 1 ∧
      (handleBackspace s).2 = true) := by
  constructor
  · intro ha
    have hanne : s.anchorIndex ≠ none := by
      rw [ha]
      simp
    have hrs : removeSelection s = ({ s with anchorIndex := none }, false) := by
      simp [removeSelection, ha]
    simp only [handleBackspace]
    rw [if_pos hanne, hrs]
    exact ⟨rfl, rfl, rfl, rfl⟩
  · intro ha hc
    have hanne : ¬ s.anchorIndex ≠ none := by
      rw [ha]
      simp
    simp only [handleBackspace]
    rw [if_neg hanne, if_neg hc]
    exact ⟨rfl, rfl, rfl⟩

/-- Witness for C10: in ">> hello" with cursor 2, a degenerate selection
(anchor 2) makes Backspace a pure anchor-clear; without an anchor the same
Backspace deletes the character before the cursor. -/
theorem degenerate_selection_backspace_witness :
    (handleBackspace
      { currentPrompt := ">> ".toList
        currentPromptLine := ">> hello".toList
        cursorIndex := 2
        anchorIndex := some 2
        rawCommandHistory := []
        historyIndex := 0
        lastKnownCurrentLine := []
        filteredCommandHistory := []
        columns := 80
        justTypedLastInColumn := false
        writes := [] }).1.currentPromptLine = ">> hello".toList ∧
    (handleBackspace
      { currentPrompt := ">> ".toList
        currentPromptLine := ">> hello".toList
        cursorIndex := 2
        anchorIndex := none
        rawCommandHistory := []
        historyIndex := 0
        lastKnownCurrentLine := []
        filteredCommandHistory := []
        columns := 80
        justTypedLastInColumn := false
        writes := [] }).1.currentPromptLine = ">> hllo".toList := by
  constructor
  · have h := degenerate_selection_backspace
      { currentPrompt := ">> ".toList
        currentPromptLine := ">> hello".toList
        cursorIndex := 2
        anchorIndex := some 2
        rawCommandHistory := []
        historyIndex := 0
        lastKnownCurrentLine := []
        filteredCommandHistory := []
        columns := 80
        justTypedLastInColumn := false
        writes := [] }
    exact (h.1 (by decide)).2.2.1
  · have h := degenerate_selection_backspace
      { currentPrompt := ">> ".toList
        currentPromptLine := ">> hello".toList
        cursorIndex := 2
        anchorIndex := none
        rawCommandHistory := []
        historyIndex := 0
        lastKnownCurrentLine := []
        filteredCommandHistory := []
        columns := 80
        justTypedLastInColumn := false
        writes := [] }
    exact ((h.2 (by decide) (by decide)).1).trans (by decide)

/-- C7: when the cursor's absolute index on the line is a positive multiple of
the column count, a Left arrow emits a single move-up-one-row plus
jump-to-last-column escape (1-based column `columns`, i.e. 0-based column
`columns - 1` in the row above) and moves the cursor to the previous absolute
index — not a plain Left-arrow escape; symmetrically, a Right arrow at the
last column emits move-down plus jump-to-column-0.  The
`justTypedLastInColumn` compensation flag is off (its steady state). -/
theorem wrap_aware_cursor_movement (s : CWState)
    (hjt : s.justTypedLastInColumn = false) :
    (s.cursorIndex ≠ 0 →
      (s.cursorIndex + s.currentPrompt.length) % s.columns = 0 →
      ((handleLeftRight s CursorDirection.left AnchorPolicy.move).1.writes
        = s.writes ++ [AK_UP ++ AK_MOVE_TO_POSITION_IN_LINE s.columns] ∧
       (handleLeftRight s CursorDirection.left AnchorPolicy.move).1.cursorIndex
        = s.cursorIndex - 1 ∧
       AK_UP ++ AK_MOVE_TO_POSITION_IN_LINE s.columns ≠ AK_LEFT)) ∧
    (s.cursorIndex ≠ getMaxIndexOnLine s →
      (s.cursorIndex + s.currentPrompt.length) % s.columns = s.columns - 1 →
      ((handleLeftRight s CursorDirection.right AnchorPolicy.move).1.writes
        = s.writes ++ [AK_DOWN ++ AK_MOVE_TO_POSITION_IN_LINE 0] ∧
       (handleLeftRight s CursorDirection.right AnchorPolicy.move).1.cursorIndex
        = s.cursorIndex + 1 ∧
       AK_DOWN ++ AK_MOVE_TO_POSITION_IN_LINE 0 ≠ AK_RIGHT)) := by
  constructor
  · intro hc0 hmod
    refine ⟨?_, ?_, ?_⟩
    · rcases han : s.anchorIndex with _ | a0 <;>
        simp [handleLeftRight, hc0, hjt, getAbsoluteIndexOnLine, hmod,
          possiblyUpdateAnchorForCursorChange, fire, han]
    · rcases han : s.anchorIndex with _ | a0 <;>
        simp [handleLeftRight, hc0, hjt, getAbsoluteIndexOnLine, hmod,
          possiblyUpdateAnchorForCursorChange, fire, han]
    · intro hcontra
      have h3 : (AK_UP ++ AK_MOVE_TO_POSITION_IN_LINE s.columns).take 3
          = AK_LEFT.take 3 := by
        rw [hcontra]
      rw [take_append_of_length AK_UP _ 3 (by decide)] at h3
      exact absurd h3 (by decide)
  · intro hcmax hmod
    refine ⟨?_, ?_, ?_⟩
    · rcases han : s.anchorIndex with _ | a0 <;>
        simp [handleLeftRight, hcmax, hjt, getAbsoluteIndexOnLine, hmod,
          possiblyUpdateAnchorForCursorChange, fire, han]
    · rcases han : s.anchorIndex with _ | a0 <;>
        simp [handleLeftRight, hcmax, hjt, getAbsoluteIndexOnLine, hmod,
          possiblyUpdateAnchorForCursorChange, fire, han]
    · intro hcontra
      have h3 : (AK_DOWN ++ AK_MOVE_TO_POSITION_IN_LINE 0).take 3
          = AK_RIGHT.take 3 := by
        rw [hcontra]
      rw [take_append_of_length AK_DOWN _ 3 (by decide)] at h3
      exact absurd h3 (by decide)

/-- Witness for C7 on the spec's example: columns = 10, a 25-character line
">> " plus 22 letters, cursor at absolute index 10.  Left emits exactly
up-one-row plus jump-to-column-10 (1-based; 0-based column 9), landing at
absolute index 9, which is row 0, column 9 — never row 1, column −1. -/
theorem wrap_aware_cursor_movement_witness :
    ((handleLeftRight
      { currentPrompt := ">> ".toList
        currentPromptLine := ">> aaaaaaaaaaaaaaaaaaaaaa".toList
        cursorIndex := 7
        anchorIndex := none
        rawCommandHistory := []
        historyIndex := 0
        lastKnownCurrentLine := []
        filteredCommandHistory := []
        columns := 10
        justTypedLastInColumn := false
        writes := [] }
      CursorDirection.left AnchorPolicy.move).1.writes
      = [AK_UP ++ AK_MOVE_TO_POSITION_IN_LINE 10] ∧
    (handleLeftRight
      { currentPrompt := ">> ".toList
        currentPromptLine := ">> aaaaaaaaaaaaaaaaaaaaaa".toList
        cursorIndex := 7
        anchorIndex := none
        rawCommandHistory := []
        historyIndex := 0
        lastKnownCurrentLine := []
        filteredCommandHistory := []
        columns := 10
        justTypedLastInColumn := false
        writes := [] }
      CursorDirection.left AnchorPolicy.move).1.cursorIndex + 3 = 9) ∧
    9 / 10 = 0 ∧ 9 % 10 = 9 := by
  have h := wrap_aware_cursor_movement
    { currentPrompt := ">> ".toList
      currentPromptLine := ">> aaaaaaaaaaaaaaaaaaaaaa".toList
      cursorIndex := 7
      anchorIndex := none
      rawCommandHistory := []
      historyIndex := 0
      lastKnownCurrentLine := []
      filteredCommandHistory := []
      columns := 10
      justTypedLastInColumn := false
      writes := [] }
    (by decide)
  obtain ⟨hw, hcur, hnp⟩ := h.1 (by decide) (by decide)
  refine ⟨⟨?_, ?_⟩, by decide, by decide⟩
  · rw [hw]
    decide
  · rw [hcur]
    decide

/-!
Section range index (`LineRangeTree` in the section-styling sources).

A section holds an inclusive 0-based line range (only the `line` components of
the `vscode.Range` are ever read) and the `isExplicit` flag.  The root node
has no section; its `getStartLine` is 0 and its `getEndLine` is Infinity,
modelled as `none`.  `_set` builds the tree by walking the current insertion
path upwards until the new section's range fits, then attaching it and
descending; here the mutable parent pointers become an explicit stack of open
frames (deepest first, root last): walking to the parent closes the top frame
into a finished `TreeNode` appended to the frame below.  `_searchByLine` is
the source's binary search; its JS indices run with `end = mid - 1` possibly
reaching −1, rendered in `Nat` with the exclusive bound `end1 = end + 1` (so
`start <= end` becomes `start < end1` and `mid = (start + end1 - 1) / 2` is
the same `Math.floor((start + end) / 2)`). -/

/-- Section data: inclusive 0-based line range and the explicit flag. -/
structure SectionData where
  startLine : Nat
  endLine : Nat
  isExplicit : Bool
deriving DecidableEq

/-- A section contains a line when the line lies in its inclusive range. -/
def SectionData.containsLine (s : SectionData) (line : Nat) : Prop :=
  s.startLine ≤ line ∧ line ≤ s.endLine

instance (s : SectionData) (line : Nat) : Decidable (s.containsLine line) := by
  unfold SectionData.containsLine
  infer_instance

/-- A node of the `LineRangeTree`: the optional section (the root has none)
and the ordered children. -/
inductive TreeNode where
  | node (sec : Option SectionData) (children : List TreeNode)

/-- The node's section. -/
def TreeNode.sec : TreeNode → Option SectionData
  | TreeNode.node s _ => s

/-- The node's children. -/
def TreeNode.children : TreeNode → List TreeNode
  | TreeNode.node _ c => c

/-- `getStartLine`: 0 for the root. -/
def TreeNode.getStartLine : TreeNode → Nat
  | TreeNode.node none _ => 0
  | TreeNode.node (some s) _ => s.startLine

/-- `getEndLine`: Infinity (`none`) for the root. -/
def TreeNode.getEndLine : TreeNode → Option Nat
  | TreeNode.node none _ => none
  | TreeNode.node (some s) _ => some s.endLine

/-- `line <= end` with Infinity as `none`. -/
def leEndO (line : Nat) : Option Nat → Bool
  | none => true
  | some e => decide (line ≤ e)

/-- The loop of `_searchByLine` (binary search among the children for one
whose inclusive range contains the line). -/
def searchLoop (line : Nat) (children : List TreeNode) (start end1 : Nat) :
    Option TreeNode :=
  if h : start < end1 then
    let mid := (start + end1 - 1) / 2
    let midNode := children.getD mid (TreeNode.node none [])
    if decide (midNode.getStartLine ≤ line) && leEndO line midNode.getEndLine then
      some midNode
    else if line < midNode.getStartLine then
      searchLoop line children start mid
    else
      searchLoop line children (mid + 1) end1
  else none
termination_by end1 - start
decreasing_by
  · omega
  · omega

/-- `_searchByLine` (a node with no children immediately yields none, as in
the source's early return). -/
def searchByLine (line : Nat) (parentNode : TreeNode) : Option TreeNode :=
  searchLoop line parentNode.children 0 parentNode.children.length

/-- A successful search result is one of the children. -/
theorem searchLoop_mem (line : Nat) (children : List TreeNode) :
    ∀ (k start end1 : Nat), end1 - start ≤ k → end1 ≤ children.length →
      ∀ c, searchLoop line children start end1 = some c → c ∈ children := by
  intro k
  induction k with
  | zero =>
    intro start end1 hk hle c h
    rw [searchLoop] at h
    rw [dif_neg (by omega)] at h
    exact absurd h (by simp)
  | succ m ih =>
    intro start end1 hk hle c h
    rw [searchLoop] at h
    by_cases hlt : start < end1
    · rw [dif_pos hlt] at h
      have hmid : (start + end1 - 1) / 2 < children.length := by omega
      by_cases h1 : decide ((children.getD ((start + end1 - 1) / 2)
          (TreeNode.node none [])).getStartLine ≤ line)
          && leEndO line (children.getD ((start + end1 - 1) / 2)
            (TreeNode.node none [])).getEndLine
      · rw [if_pos h1] at h
        have hc : c = children.getD ((start + end1 - 1) / 2)
            (TreeNode.node none []) := (Option.some.inj h).symm
        rw [hc, List.getD_eq_getElem _ _ hmid]
        exact List.getElem_mem _
      · rw [if_neg h1] at h
        by_cases h2 : line < (children.getD ((start + end1 - 1) / 2)
            (TreeNode.node none [])).getStartLine
        · rw [if_pos h2] at h
          exact ih start ((start + end1 - 1) / 2) (by omega) (by omega) c h
        · rw [if_neg h2] at h
          exact ih ((start + end1 - 1) / 2 + 1) end1 (by omega) hle c h
    · rw [dif_neg hlt] at h
      exact absurd h (by simp)

/-- A successful `_searchByLine` result is a child of the queried node. -/
theorem searchByLine_mem {line : Nat} {n : TreeNode} {c : TreeNode}
    (h : searchByLine line n = some c) : c ∈ n.children :=
  searchLoop_mem line n.children n.children.length 0 n.children.length
    (by omega) (le_refl _) c h

/-- Children are structurally smaller than their parent. -/
theorem sizeOf_child_lt {c n : TreeNode} (h : c ∈ n.children) :
    sizeOf c < sizeOf n := by
  rcases n with ⟨sec, children⟩
  have h1 : sizeOf c < sizeOf children :=
    List.sizeOf_lt_of_mem (by simpa [TreeNode.children] using h)
  simp only [TreeNode.node.sizeOf_spec]
  omega

/-- The loop of `find`: repeatedly descend into the child containing the
line; the last node found is the result. -/
def findLoop (line : Nat) (n : TreeNode) : TreeNode :=
  match h : searchByLine line n with
  | none => n
  | some c => findLoop line c
termination_by sizeOf n
decreasing_by
  exact sizeOf_child_lt (searchByLine_mem h)

/-- `find`: the section of the deepest node reached, or none when the search
never leaves the (sectionless) root. -/
def LineRangeTree_find (t : TreeNode) (line : Nat) : Option SectionData :=
  (findLoop line t).sec

/-- An open frame of the builder: the node's section (none for the root) and
the children attached so far. -/
structure BuildFrame where
  sec : Option SectionData
  children : List TreeNode

/-- Start of a frame's range (`getStartLine` of the node under
construction). -/
def frameStart (f : BuildFrame) : Nat :=
  match f.sec with
  | none => 0
  | some s => s.startLine

/-- End of a frame's range, Infinity (`none`) for the root. -/
def frameEnd (f : BuildFrame) : Option Nat :=
  match f.sec with
  | none => none
  | some s => some s.endLine

/-- The fit check of `_set`: the new section's range lies inside the
candidate ancestor's range. -/
def fitsFrame (s : SectionData) (f : BuildFrame) : Bool :=
  decide (frameStart f ≤ s.startLine) &&
    (match frameEnd f with
     | none => true
     | some e => decide (s.endLine ≤ e))

/-- Walking up to the parent: the finished top frame becomes a `TreeNode`
appended to the children of the frame below. -/
def closeFrame (f g : BuildFrame) : BuildFrame :=
  { g with children := g.children ++ [TreeNode.node f.sec f.children] }

/-- The walk-up loop of `_set`'s insertion, with the current candidate frame
held apart from the frames below it: pop frames until the section fits, then
attach it and descend into it.  The unfit-bottom case is unreachable when the
root frame (range [0, Infinity)) is at the bottom; the source's while loop
would silently drop the section there. -/
def insertSectionAux (f : BuildFrame) (rest : List BuildFrame)
    (s : SectionData) : List BuildFrame :=
  if fitsFrame s f then { sec := some s, children := [] } :: f :: rest
  else
    match rest with
    | [] => [f]
    | g :: rest1 => insertSectionAux (closeFrame f g) rest1 s

/-- One iteration of `_set`'s insertion over the whole stack. -/
def insertSection (stack : List BuildFrame) (s : SectionData) :
    List BuildFrame :=
  match stack with
  | [] => []
  | f :: rest => insertSectionAux f rest s

/-- Close the top frame into every remaining frame, down to the root node. -/
def collapseAux (f : BuildFrame) : List BuildFrame → TreeNode
  | [] => TreeNode.node f.sec f.children
  | g :: rest => collapseAux (closeFrame f g) rest

/-- Close a whole stack into the final tree. -/
def collapseStack : List BuildFrame → TreeNode
  | [] => TreeNode.node none []
  | f :: rest => collapseAux f rest

/-- `_set` / the `LineRangeTree` constructor: insert the sections in
presentation order starting from the bare root frame. -/
def LineRangeTree_set (sections : List SectionData) : TreeNode :=
  collapseStack (sections.foldl insertSection
    [{ sec := none, children := [] }])

/-- Order/containment of endpoints with Infinity as `none` on the right. -/
def endOLe : Option Nat → Option Nat → Bool
  | _, none => true
  | none, some _ => false
  | some a, some b => decide (a ≤ b)

/-- A node's inclusive range contains the line. -/
def nodeContains (c : TreeNode) (line : Nat) : Prop :=
  c.getStartLine ≤ line ∧ leEndO line c.getEndLine = true

/-- The node's range ends strictly before a given line. -/
def childEndBefore (c : TreeNode) (x : Nat) : Prop :=
  match c.getEndLine with
  | none => False
  | some e => e < x

/-- Strict left-to-right order of sibling ranges. -/
def nodeEndLt (a b : TreeNode) : Prop :=
  match a.getEndLine with
  | none => False
  | some e => e < b.getStartLine

/-- The document-order relation of the well-nestedness precondition: an
earlier section either ends strictly before a later one starts, or properly
contains it. -/
def SecBefore (a b : SectionData) : Prop :=
  a.endLine < b.startLine ∨ (a.startLine ≤ b.startLine ∧ b.endLine ≤ a.endLine)

/-- A section occurs in the subtree of a node. -/
inductive InTree : SectionData → TreeNode → Prop where
  | self (s : SectionData) (children : List TreeNode) :
      InTree s (TreeNode.node (some s) children)
  | child (s : SectionData) (sec : Option SectionData)
      (children : List TreeNode) (c : TreeNode) :
      c ∈ children → InTree s c → InTree s (TreeNode.node sec children)

/-- Well-formedness of a node whose range is [lo, hiO]: children are section
nodes with valid ranges nested in [lo, hiO], pairwise disjoint in order, and
themselves well formed. -/
inductive NodeInv : Nat → Option Nat → TreeNode → Prop where
  | mk (lo : Nat) (hiO : Option Nat) (sec : Option SectionData)
      (children : List TreeNode)
      (hsec : ∀ c ∈ children, c.sec ≠ none)
      (hlo : ∀ c ∈ children, lo ≤ c.getStartLine)
      (hhi : ∀ c ∈ children, endOLe c.getEndLine hiO = true)
      (hse : ∀ c ∈ children, endOLe (some c.getStartLine) c.getEndLine = true)
      (hrec : ∀ c ∈ children, NodeInv c.getStartLine c.getEndLine c)
      (hsorted : children.Pairwise nodeEndLt) :
      NodeInv lo hiO (TreeNode.node sec children)

/-- Two members of a pairwise-related list are equal or related one way. -/
theorem pairwise_mem_cases {α : Type} {R : α → α → Prop} {l : List α}
    (h : l.Pairwise R) {a b : α} (ha : a ∈ l) (hb : b ∈ l) :
    a = b ∨ R a b ∨ R b a := by
  induction l with
  | nil => simp at ha
  | cons x xs ih =>
    rcases List.mem_cons.mp ha with ha1 | ha1 <;>
      rcases List.mem_cons.mp hb with hb1 | hb1
    · left
      rw [ha1, hb1]
    · right
      left
      rw [ha1]
      exact (List.pairwise_cons.mp h).1 _ hb1
    · right
      right
      rw [hb1]
      exact (List.pairwise_cons.mp h).1 _ ha1
    · exact ih (List.pairwise_cons.mp h).2 ha1 hb1

/-- A section node's containment test coincides with its section's. -/
theorem nodeContains_section (cs : SectionData) (ccs : List TreeNode)
    (line : Nat) :
    nodeContains (TreeNode.node (some cs) ccs) line ↔ cs.containsLine line := by
  unfold nodeContains SectionData.containsLine TreeNode.getStartLine
    TreeNode.getEndLine leEndO
  simp

/-- Bounds of a section in a well-formed subtree: it is the node's own
section, or its (valid) range lies within the node's range. -/
theorem inTree_bounds {t : SectionData} {n : TreeNode} {lo : Nat}
    {hiO : Option Nat} (hinv : NodeInv lo hiO n) (ht : InTree t n) :
    n.sec = some t ∨
      (lo ≤ t.startLine ∧ endOLe (some t.endLine) hiO = true ∧
        t.startLine ≤ t.endLine) := by
  induction ht generalizing lo hiO with
  | self children =>
    left
    rfl
  | child sec children c hcmem hintree ih =>
    cases hinv with
    | mk _ _ _ _ hsec hlo hhi hse hrec hsorted =>
      right
      have hinvc := hrec c hcmem
      rcases c with ⟨copt, cch⟩
      rcases ih hinvc with hsl | ⟨h1, h2, h3⟩
      · rcases copt with _ | cs
        · exact absurd hsl (by simp [TreeNode.sec])
        · have hcs : cs = t := by
            have := hsl
            simp [TreeNode.sec] at this
            exact this
          subst hcs
          refine ⟨?_, ?_, ?_⟩
          · have := hlo _ hcmem
            simpa [TreeNode.getStartLine] using this
          · have := hhi _ hcmem
            simpa [TreeNode.getEndLine] using this
          · have := hse _ hcmem
            simpa [TreeNode.getStartLine, TreeNode.getEndLine, endOLe] using this
      · have hstart : lo ≤ TreeNode.getStartLine (TreeNode.node copt cch) :=
          hlo _ hcmem
      
        have hend : endOLe (TreeNode.getEndLine (TreeNode.node copt cch)) hiO
            = true := hhi _ hcmem
        rcases copt with _ | cs
        · exact absurd (hsec _ hcmem) (by simp [TreeNode.sec])
        · simp [TreeNode.getStartLine] at hstart h1
          simp [TreeNode.getEndLine] at hend
          simp [TreeNode.getEndLine, endOLe] at h2
          refine ⟨by omega, ?_, h3⟩
          rcases hiO with _ | hi
          · simp [endOLe]
          · simp [endOLe] at hend ⊢
            omega

/-- A range that ends before the line does not contain it. -/
theorem not_contains_of_endBefore {c : TreeNode} {line : Nat}
    (h : childEndBefore c line) : ¬ nodeContains c line := by
  intro hcon
  rcases hcon with ⟨h1, h2⟩
  unfold childEndBefore at h
  rcases hE : c.getEndLine with _ | e
  · rw [hE] at h
    exact h
  · rw [hE] at h h2
    simp [leEndO] at h2
    omega

/-- A range that starts after the line does not contain it. -/
theorem not_contains_of_lt_start {c : TreeNode} {line : Nat}
    (h : line < c.getStartLine) : ¬ nodeContains c line := by
  intro hcon
  rcases hcon with ⟨h1, _⟩
  omega

/-- An exhausted search window together with the boundary invariants rules
out containment everywhere. -/
theorem searchLoop_stop (line : Nat) (children : List TreeNode)
    (start end1 : Nat) (hge : ¬ start < end1)
    (hleft : ∀ (j : Nat) (hj : j < children.length), j < start →
      childEndBefore (children.get ⟨j, hj⟩) line)
    (hright : ∀ (j : Nat) (hj : j < children.length), end1 ≤ j →
      line < (children.get ⟨j, hj⟩).getStartLine) :
    searchLoop line children start end1 = none ∧
      ∀ (j : Nat) (hj : j < children.length),
        ¬ nodeContains (children.get ⟨j, hj⟩) line := by
  constructor
  · rw [searchLoop, dif_neg hge]
  · intro j hj
    by_cases hjs : j < start
    · exact not_contains_of_endBefore (hleft j hj hjs)
    · exact not_contains_of_lt_start (hright j hj (by omega))

/-- Binary-search correctness for `_searchByLine`'s loop over sorted,
disjoint, valid children: a `some` result is a child containing the line, a
`none` result means no child contains it. -/
theorem searchLoop_correct (line : Nat) (children : List TreeNode)
    (hsorted : children.Pairwise nodeEndLt)
    (hse : ∀ c ∈ children, endOLe (some c.getStartLine) c.getEndLine = true) :
    ∀ (k start end1 : Nat), end1 - start ≤ k → end1 ≤ children.length →
      (∀ (j : Nat) (hj : j < children.length), j < start →
        childEndBefore (children.get ⟨j, hj⟩) line) →
      (∀ (j : Nat) (hj : j < children.length), end1 ≤ j →
        line < (children.get ⟨j, hj⟩).getStartLine) →
      ((∀ c, searchLoop line children start end1 = some c →
          c ∈ children ∧ nodeContains c line) ∧
       (searchLoop line children start end1 = none →
          ∀ (j : Nat) (hj : j < children.length),
            ¬ nodeContains (children.get ⟨j, hj⟩) line)) := by
  intro k
  induction k with
  | zero =>
    intro start end1 hk hle hleft hright
    have hstop := searchLoop_stop line children start end1 (by omega)
      hleft hright
    constructor
    · intro c hc
      rw [hstop.1] at hc
      exact absurd hc (by simp)
    · intro _
      exact hstop.2
  | succ m ih =>
    intro start end1 hk hle hleft hright
    by_cases hlt : start < end1
    · have hmid : (start + end1 - 1) / 2 < children.length := by omega
      have hgetD : children.getD ((start + end1 - 1) / 2)
          (TreeNode.node none [])
          = children.get ⟨(start + end1 - 1) / 2, hmid⟩ :=
        List.getD_eq_getElem _ _ hmid
      by_cases h1 : decide ((children.getD ((start + end1 - 1) / 2)
            (TreeNode.node none [])).getStartLine ≤ line)
          && leEndO line (children.getD ((start + end1 - 1) / 2)
            (TreeNode.node none [])).getEndLine
      · have hstep : searchLoop line children start end1 =
            some (children.getD ((start + end1 - 1) / 2)
              (TreeNode.node none [])) := by
          rw [searchLoop, dif_pos hlt, if_pos h1]
        simp only [Bool.and_eq_true, decide_eq_true_eq] at h1
        constructor
        · intro c hc
          rw [hstep] at hc
          have hc' : c = children.getD ((start + end1 - 1) / 2)
              (TreeNode.node none []) := (Option.some.inj hc).symm
          constructor
          · rw [hc', hgetD]
            exact List.get_mem _ _ _
          · rw [hc']
            exact ⟨h1.1, h1.2⟩
        · intro hnone
          rw [hstep] at hnone
          exact absurd hnone (by simp)
      · by_cases h2 : line < (children.getD ((start + end1 - 1) / 2)
            (TreeNode.node none [])).getStartLine
        · have hstep : searchLoop line children start end1 =
              searchLoop line children start ((start + end1 - 1) / 2) := by
            rw [searchLoop, dif_pos hlt, if_neg h1, if_pos h2]
          rw [hgetD] at h2
          have hright' : ∀ (j : Nat) (hj : j < children.length),
              (start + end1 - 1) / 2 ≤ j →
              line < (children.get ⟨j, hj⟩).getStartLine := by
            intro j hj hjm
            by_cases hjeq : j = (start + end1 - 1) / 2
            · subst hjeq
              exact h2
            · have hjlt : (start + end1 - 1) / 2 < j := by omega
              have hrel := (List.pairwise_iff_get.mp hsorted)
                ⟨(start + end1 - 1) / 2, hmid⟩ ⟨j, hj⟩ hjlt
              unfold nodeEndLt at hrel
              rcases hEm : (children.get ⟨(start + end1 - 1) / 2,
                  hmid⟩).getEndLine with _ | em
              · rw [hEm] at hrel
                exact absurd hrel (by simp)
              · rw [hEm] at hrel
                have hsem := hse _ (List.get_mem children _ hmid)
                rw [hEm] at hsem
                simp only [endOLe, decide_eq_true_eq] at hsem
                omega
          have hres := ih start ((start + end1 - 1) / 2) (by omega)
            (by omega) hleft hright'
          constructor
          · intro c hc
            rw [hstep] at hc
            exact hres.1 c hc
          · intro hnone
            rw [hstep] at hnone
            exact hres.2 hnone
        · have hstep : searchLoop line children start end1 =
              searchLoop line children ((start + end1 - 1) / 2 + 1) end1 := by
            rw [searchLoop, dif_pos hlt, if_neg h1, if_neg h2]
          rw [hgetD] at h1 h2
          have hsm : (children.get ⟨(start + end1 - 1) / 2,
              hmid⟩).getStartLine ≤ line := by omega
          have hend : childEndBefore (children.get ⟨(start + end1 - 1) / 2,
              hmid⟩) line := by
            simp only [Bool.and_eq_true, decide_eq_true_eq, not_and] at h1
            have hne := h1 hsm
            unfold childEndBefore
            rcases hEm : (children.get ⟨(start + end1 - 1) / 2,
                hmid⟩).getEndLine with _ | em
            · rw [hEm] at hne
              simp [leEndO] at hne
            · rw [hEm] at hne
              simp [leEndO] at hne
              omega
          have hleft' : ∀ (j : Nat) (hj : j < children.length),
              j < (start + end1 - 1) / 2 + 1 →
              childEndBefore (children.get ⟨j, hj⟩) line := by
            intro j hj hjm
            by_cases hjeq : j = (start + end1 - 1) / 2
            · subst hjeq
              exact hend
            · by_cases hjs : j < start
              · exact hleft j hj hjs
              · have hjlt : j < (start + end1 - 1) / 2 := by omega
                have hrel := (List.pairwise_iff_get.mp hsorted)
                  ⟨j, hj⟩ ⟨(start + end1 - 1) / 2, hmid⟩ hjlt
                unfold nodeEndLt at hrel
                unfold childEndBefore
                rcases hEj : (children.get ⟨j, hj⟩).getEndLine with _ | ej
                · rw [hEj] at hrel
                  exact absurd hrel (by simp)
                · rw [hEj] at hrel
                  omega
          have hres := ih ((start + end1 - 1) / 2 + 1) end1 (by omega)
            hle hleft' hright
          constructor
          · intro c hc
            rw [hstep] at hc
            exact hres.1 c hc
          · intro hnone
            rw [hstep] at hnone
            exact hres.2 hnone
    · have hstop := searchLoop_stop line children start end1 hlt hleft hright
      constructor
      · intro c hc
        rw [hstop.1] at hc
        exact absurd hc (by simp)
      · intro _
        exact hstop.2

/-- `_searchByLine` correctness on a node with sorted, disjoint, valid
children. -/
theorem searchByLine_correct (line : Nat) (n : TreeNode)
    (hsorted : n.children.Pairwise nodeEndLt)
    (hse : ∀ c ∈ n.children,
      endOLe (some c.getStartLine) c.getEndLine = true) :
    (∀ c, searchByLine line n = some c →
      c ∈ n.children ∧ nodeContains c line) ∧
    (searchByLine line n = none → ∀ c ∈ n.children,
      ¬ nodeContains c line) := by
  have h := searchLoop_correct line n.children hsorted hse n.children.length
    0 n.children.length (by omega) (le_refl _)
    (by
      intro j hj hj0
      exact absurd hj0 (by omega))
    (by
      intro j hj hj1
      exact absurd hj1 (by omega))
  constructor
  · exact h.1
  · intro hnone c hc
    rcases List.mem_iff_get.mp hc with ⟨j, hj⟩
    rw [← hj]
    exact h.2 hnone j.1 j.2

/-- `find`'s loop stops at a node whose search yields nothing. -/
theorem findLoop_stop {line : Nat} {n : TreeNode}
    (h : searchByLine line n = none) : findLoop line n = n := by
  rw [findLoop]
  split
  · rfl
  · rename_i c hc
    rw [h] at hc
    exact absurd hc (by simp)

/-- `find`'s loop descends into the child found by the search. -/
theorem findLoop_descend {line : Nat} {n c : TreeNode}
    (h : searchByLine line n = some c) :
    findLoop line n = findLoop line c := by
  rw [findLoop]
  split
  · rename_i hc
    rw [h] at hc
    exact absurd hc (by simp)
  · rename_i c' hc
    rw [h] at hc
    rw [Option.some.inj hc]

/-- A node's own range agrees with its section's range. -/
theorem node_bound_self (c : TreeNode) :
    (match c.sec with
      | some ns =>
        c.getStartLine = ns.startLine ∧ c.getEndLine = some ns.endLine
      | none => True) := by
  rcases c with ⟨copt, cch⟩
  rcases copt with _ | cs
  · trivial
  · exact ⟨rfl, rfl⟩

/-- A node known to carry a section is a `node (some _) _`. -/
theorem section_node_cases (c : TreeNode) (hs : c.sec ≠ none) :
    ∃ cs cch, c = TreeNode.node (some cs) cch ∧
      c.getStartLine = cs.startLine ∧ c.getEndLine = some cs.endLine := by
  rcases c with ⟨copt, cch⟩
  rcases copt with _ | cs
  · exact absurd rfl hs
  · exact ⟨cs, cch, rfl, rfl, rfl⟩

/-- A well-formed child whose subtree holds a section containing the line
itself contains the line. -/
theorem child_contains_of_inTree {t : SectionData} {c : TreeNode} {line : Nat}
    (hinvc : NodeInv c.getStartLine c.getEndLine c)
    (ht : InTree t c) (htc : t.containsLine line) :
    nodeContains c line := by
  rcases htc with ⟨ht1, ht2⟩
  rcases inTree_bounds hinvc ht with hself | ⟨h1, h2, h3⟩
  · rcases section_node_cases c (by rw [hself]; simp)
      with ⟨cs, cch, hceq, hcs, hce⟩
    have hcst : cs = t := by
      rw [hceq] at hself
      simpa [TreeNode.sec] using hself
    subst hcst
    constructor
    · omega
    · rw [hce]
      simp [leEndO]
      omega
  · constructor
    · omega
    · rcases hE : c.getEndLine with _ | e
      · simp [leEndO]
      · rw [hE] at h2
        simp [endOLe] at h2
        simp [leEndO]
        omega

/-- Transitivity of the end-point order through an intermediate bound. -/
theorem endOLe_trans {a : Nat} {b c : Option Nat}
    (h1 : endOLe (some a) b = true) (h2 : endOLe b c = true) :
    endOLe (some a) c = true := by
  rcases b with _ | bb
  · rcases c with _ | cc
    · simp [endOLe]
    · simp [endOLe] at h2
  · rcases c with _ | cc
    · simp [endOLe]
    · simp [endOLe] at h1 h2 ⊢
      omega

/-- Disjoint ordered ranges cannot both contain the same line. -/
theorem not_both_contain {a b : TreeNode} {line : Nat}
    (hab : nodeEndLt a b) (ha : nodeContains a line)
    (hb : nodeContains b line) : False := by
  unfold nodeEndLt at hab
  rcases hE : a.getEndLine with _ | e
  · rw [hE] at hab
    exact hab
  · rw [hE] at hab
    rcases ha with ⟨ha1, ha2⟩
    rcases hb with ⟨hb1, hb2⟩
    rw [hE] at ha2
    simp [leEndO] at ha2
    omega

/-- Inversion for subtree membership at a destructured node. -/
theorem inTree_inv {t : SectionData} {sec : Option SectionData}
    {children : List TreeNode}
    (h : InTree t (TreeNode.node sec children)) :
    sec = some t ∨ ∃ c ∈ children, InTree t c :=
  match h with
  | InTree.self _ _ => Or.inl rfl
  | InTree.child _ _ _ c hm hi => Or.inr ⟨c, hm, hi⟩

/-- The descent loop of `find` on a well-formed subtree: it stays put when
no child contains the line, and otherwise lands on a node whose section is
the deepest one of the subtree containing the line. -/
theorem findLoop_deepest (line : Nat) {n : TreeNode} {lo : Nat}
    {hiO : Option Nat} (hinv : NodeInv lo hiO n) :
    (match n.sec with
      | some ns => lo = ns.startLine ∧ hiO = some ns.endLine
      | none => True) →
    (((∀ c ∈ n.children, ¬ nodeContains c line) → findLoop line n = n) ∧
     (∀ c0 ∈ n.children, nodeContains c0 line →
       ∃ rs, (findLoop line n).sec = some rs ∧ InTree rs n ∧
         rs.containsLine line ∧ lo ≤ rs.startLine ∧
         endOLe (some rs.endLine) hiO = true ∧
         (∀ t, InTree t n → t.containsLine line →
           t.startLine ≤ rs.startLine ∧ rs.endLine ≤ t.endLine))) := by
  induction hinv with
  | mk lo hiO sec children hsec hlo hhi hse hrec hsorted ih =>
    intro hbound
    constructor
    · intro hnone
      rcases hres : searchByLine line (TreeNode.node sec children) with _ | c
      · exact findLoop_stop hres
      · have hmem := (searchByLine_correct line (TreeNode.node sec children)
          hsorted hse).1 c hres
        exact absurd hmem.2 (hnone c hmem.1)
    · intro c0 hc0 hcon0
      rcases hres : searchByLine line (TreeNode.node sec children) with _ | c
      · exact absurd hcon0
          ((searchByLine_correct line (TreeNode.node sec children)
            hsorted hse).2 hres c0 hc0)
      · have hcfacts := (searchByLine_correct line
          (TreeNode.node sec children) hsorted hse).1 c hres
        rcases hcfacts with ⟨hcmem, hccon⟩
        have hflstep := findLoop_descend hres
        rcases section_node_cases c (hsec c hcmem)
          with ⟨cs, cch, hceq, hcs, hce⟩
        have ihc := ih c hcmem (node_bound_self c)
        by_cases hsub : ∃ d ∈ c.children, nodeContains d line
        · rcases hsub with ⟨d, hd, hdcon⟩
          rcases ihc.2 d hd hdcon with ⟨rs, hrs1, hrs2, hrs3, hrs4, hrs5, hrs6⟩
          have hrsl : lo ≤ rs.startLine := by
            have := hlo c hcmem
            omega
          have hrse : endOLe (some rs.endLine) hiO = true :=
            endOLe_trans hrs5 (hhi c hcmem)
          refine ⟨rs, ?_, ?_, hrs3, hrsl, hrse, ?_⟩
          · rw [hflstep]
            exact hrs1
          · exact InTree.child rs sec children c hcmem hrs2
          · intro t htmem htcon
            rcases inTree_inv htmem with hself | ⟨c', hcmem', hint'⟩
            · subst hself
              obtain ⟨hb1, hb2⟩ := hbound
              constructor
              · omega
              · rw [hb2] at hrse
                simp [endOLe] at hrse
                omega
            · rcases pairwise_mem_cases hsorted hcmem' hcmem
                with heq | hrel | hrel
              · subst heq
                exact hrs6 t hint' htcon
              · have hc'con := child_contains_of_inTree (hrec c' hcmem')
                  hint' htcon
                exact (not_both_contain hrel hc'con hccon).elim
              · have hc'con := child_contains_of_inTree (hrec c' hcmem')
                  hint' htcon
                exact (not_both_contain hrel hccon hc'con).elim
        · push_neg at hsub
          have hstay : findLoop line c = c := ihc.1 hsub
          have hfind : findLoop line (TreeNode.node sec children) = c := by
            rw [hflstep, hstay]
          have hcsline : cs.containsLine line := by
            rw [hceq] at hccon
            exact (nodeContains_section cs cch line).mp hccon
          have hrsl : lo ≤ cs.startLine := by
            have h1 := hlo c hcmem
            omega
          have hrse : endOLe (some cs.endLine) hiO = true := by
            have h1 := hhi c hcmem
            rw [hce] at h1
            exact h1
          refine ⟨cs, ?_, ?_, hcsline, hrsl, hrse, ?_⟩
          · rw [hfind, hceq]
            rfl
          · refine InTree.child cs sec children c hcmem ?_
            rw [hceq]
            exact InTree.self cs cch
          · intro t htmem htcon
            rcases inTree_inv htmem with hself | ⟨c', hcmem', hint'⟩
            · subst hself
              obtain ⟨hb1, hb2⟩ := hbound
              constructor
              · omega
              · rw [hb2] at hrse
                simp [endOLe] at hrse
                omega
            · rcases pairwise_mem_cases hsorted hcmem' hcmem
                with heq | hrel | hrel
              · subst heq
                rw [hceq] at hint'
                rcases inTree_inv hint' with hself2 | ⟨d, hd, hintd⟩
                · have hts : cs = t := Option.some.inj hself2
                  subst hts
                  exact ⟨le_refl _, le_refl _⟩
                · have hdinv : NodeInv d.getStartLine d.getEndLine d := by
                    have h1 := hrec c' hcmem'
                    rw [hceq] at h1
                    cases h1 with
                    | mk _ _ _ _ _ _ _ _ hrecc _ =>
                      exact hrecc d hd
                  have hdcon := child_contains_of_inTree hdinv hintd htcon
                  have hdc : d ∈ c'.children := by
                    rw [hceq]
                    exact hd
                  exact (hsub d hdc hdcon).elim
              · have hc'con := child_contains_of_inTree (hrec c' hcmem')
                  hint' htcon
                exact (not_both_contain hrel hc'con hccon).elim
              · have hc'con := child_contains_of_inTree (hrec c' hcmem')
                  hint' htcon
                exact (not_both_contain hrel hccon hc'con).elim

/-- Well-formedness of one open frame relative to its own range. -/
structure FrameInv (f : BuildFrame) : Prop where
  hsec : ∀ c ∈ f.children, c.sec ≠ none
  hlo : ∀ c ∈ f.children, frameStart f ≤ c.getStartLine
  hhi : ∀ c ∈ f.children, endOLe c.getEndLine (frameEnd f) = true
  hse : ∀ c ∈ f.children, endOLe (some c.getStartLine) c.getEndLine = true
  hrec : ∀ c ∈ f.children, NodeInv c.getStartLine c.getEndLine c
  hsorted : f.children.Pairwise nodeEndLt

/-- Validity of a frame's own section range. -/
def frameValid (f : BuildFrame) : Prop :=
  match f.sec with
  | some s => s.startLine ≤ s.endLine
  | none => True

/-- The open frames form a properly nested chain down to the root frame. -/
def StackChain : List BuildFrame → Prop
  | [] => True
  | [f] => f.sec = none
  | f :: g :: rest =>
      f.sec ≠ none ∧
      frameStart g ≤ frameStart f ∧
      endOLe (frameEnd f) (frameEnd g) = true ∧
      (∀ c ∈ g.children, childEndBefore c (frameStart f)) ∧
      StackChain (g :: rest)

/-- The build invariant relative to the unprocessed sections: a nonempty
well-chained stack of well-formed frames whose attached material lies
strictly before every unprocessed section, the latter valid and in document
order. -/
structure BuildInv (stack : List BuildFrame) (rest : List SectionData) :
    Prop where
  nonempty : stack ≠ []
  chain : StackChain stack
  frames : ∀ f ∈ stack, FrameInv f ∧ frameValid f
  future_frames : ∀ f ∈ stack, ∀ s' ∈ rest,
    (match f.sec with | some fs => SecBefore fs s' | none => True)
  future_children : ∀ f ∈ stack, ∀ c ∈ f.children, ∀ s' ∈ rest,
    childEndBefore c s'.startLine
  rest_valid : ∀ s' ∈ rest, s'.startLine ≤ s'.endLine
  rest_pairwise : rest.Pairwise SecBefore

/-- The node built from a frame starts at the frame's start. -/
theorem frameNode_start (f : BuildFrame) :
    (TreeNode.node f.sec f.children).getStartLine = frameStart f := by
  rcases hs : f.sec with _ | s
  · simp [TreeNode.getStartLine, frameStart, hs]
  · simp [TreeNode.getStartLine, frameStart, hs]

/-- The node built from a frame ends at the frame's end. -/
theorem frameNode_end (f : BuildFrame) :
    (TreeNode.node f.sec f.children).getEndLine = frameEnd f := by
  rcases hs : f.sec with _ | s
  · simp [TreeNode.getEndLine, frameEnd, hs]
  · simp [TreeNode.getEndLine, frameEnd, hs]

/-- A well-formed frame closes into a well-formed node. -/
theorem frameInv_node (f : BuildFrame) (h : FrameInv f) :
    NodeInv (frameStart f) (frameEnd f)
      (TreeNode.node f.sec f.children) :=
  NodeInv.mk _ _ _ _ h.hsec h.hlo h.hhi h.hse h.hrec h.hsorted

/-- A node ending before another's start is ordered before it. -/
theorem nodeEndLt_of_endBefore {c d : TreeNode}
    (h : childEndBefore c d.getStartLine) : nodeEndLt c d := by
  unfold childEndBefore at h
  unfold nodeEndLt
  rcases hE : c.getEndLine with _ | e
  · rw [hE] at h
    exact h.elim
  · rw [hE] at h
    exact h

/-- `closeFrame` preserves the chain of the frames below. -/
theorem stackChain_closeFrame (f g : BuildFrame) (rest1 : List BuildFrame)
    (h : StackChain (f :: g :: rest1)) :
    StackChain (closeFrame f g :: rest1) := by
  obtain ⟨hfsec, hgs, hge, hgch, hchain1⟩ := h
  rcases rest1 with _ | ⟨k, rest2⟩
  · exact hchain1
  · obtain ⟨hgsec, hks, hke, hkch, hchain2⟩ := hchain1
    exact ⟨hgsec, hks, hke, hkch, hchain2⟩

/-- Closing the top frame into the frame below preserves the build
invariant, provided the closed node ends before every unprocessed
section. -/
theorem closeFrame_inv (f g : BuildFrame) (rest1 : List BuildFrame)
    (rest : List SectionData) (h : BuildInv (f :: g :: rest1) rest)
    (hend : ∀ s' ∈ rest,
      childEndBefore (TreeNode.node f.sec f.children) s'.startLine) :
    BuildInv (closeFrame f g :: rest1) rest := by
  obtain ⟨hfsec, hgs, hge, hgch, hchain1⟩ := h.chain
  have hfinv := h.frames f (by simp)
  have hginv := h.frames g (by simp)
  refine ⟨by simp, stackChain_closeFrame f g rest1 h.chain, ?_, ?_, ?_,
    h.rest_valid, h.rest_pairwise⟩
  · intro f' hf'
    rcases List.mem_cons.mp hf' with rfl | hf'
    · constructor
      · refine ⟨?_, ?_, ?_, ?_, ?_, ?_⟩
        · intro c hc
          rcases List.mem_append.mp hc with hc | hc
          · exact hginv.1.hsec c hc
          · have hcn : c = TreeNode.node f.sec f.children := by simpa using hc
            subst hcn
            exact hfsec
        · intro c hc
          rcases List.mem_append.mp hc with hc | hc
          · exact hginv.1.hlo c hc
          · have hcn : c = TreeNode.node f.sec f.children := by simpa using hc
            subst hcn
            rw [frameNode_start]
            exact hgs
        · intro c hc
          rcases List.mem_append.mp hc with hc | hc
          · exact hginv.1.hhi c hc
          · have hcn : c = TreeNode.node f.sec f.children := by simpa using hc
            subst hcn
            rw [frameNode_end]
            exact hge
        · intro c hc
          rcases List.mem_append.mp hc with hc | hc
          · exact hginv.1.hse c hc
          · have hcn : c = TreeNode.node f.sec f.children := by simpa using hc
            subst hcn
            rw [frameNode_start, frameNode_end]
            rcases hfs : f.sec with _ | fs
            · exact absurd hfs hfsec
            · have hv := hfinv.2
              unfold frameValid at hv
              rw [hfs] at hv
              unfold frameStart frameEnd
              rw [hfs]
              simp only [endOLe, decide_eq_true_eq]
              exact hv
        · intro c hc
          rcases List.mem_append.mp hc with hc | hc
          · exact hginv.1.hrec c hc
          · have hcn : c = TreeNode.node f.sec f.children := by simpa using hc
            subst hcn
            rw [frameNode_start, frameNode_end]
            exact frameInv_node f hfinv.1
        · show List.Pairwise nodeEndLt
            (g.children ++ [TreeNode.node f.sec f.children])
          rw [List.pairwise_append]
          refine ⟨hginv.1.hsorted, by simp, ?_⟩
          intro c hc d hd
          have hdn : d = TreeNode.node f.sec f.children := by simpa using hd
          subst hdn
          apply nodeEndLt_of_endBefore
          rw [frameNode_start]
          exact hgch c hc
      · exact hginv.2
    · exact h.frames f' (by simp [hf'])
  · intro f' hf' s' hs'
    rcases List.mem_cons.mp hf' with rfl | hf'
    · exact h.future_frames g (by simp) s' hs'
    · exact h.future_frames f' (by simp [hf']) s' hs'
  · intro f' hf' c hc s' hs'
    rcases List.mem_cons.mp hf' with rfl | hf'
    · rcases List.mem_append.mp hc with hc | hc
      · exact h.future_children g (by simp) c hc s' hs'
      · have hcn : c = TreeNode.node f.sec f.children := by simpa using hc
        subst hcn
        exact hend s' hs'
    · exact h.future_children f' (by simp [hf']) c hc s' hs'

/-- Pushing a fitting section as a fresh frame consumes it from the
unprocessed list and preserves the invariant. -/
theorem push_inv (f : BuildFrame) (below : List BuildFrame)
    (s : SectionData) (rest' : List SectionData)
    (h : BuildInv (f :: below) (s :: rest'))
    (hfit : fitsFrame s f = true) :
    BuildInv ({ sec := some s, children := [] } :: f :: below) rest' := by
  have hfit' : frameStart f ≤ s.startLine ∧
      endOLe (some s.endLine) (frameEnd f) = true := by
    unfold fitsFrame at hfit
    rcases hfe : frameEnd f with _ | e
    · rw [hfe] at hfit
      simp at hfit
      exact ⟨hfit, by simp [endOLe]⟩
    · rw [hfe] at hfit
      simp at hfit
      refine ⟨hfit.1, ?_⟩
      simp [endOLe]
      exact hfit.2
  refine ⟨by simp, ?_, ?_, ?_, ?_, ?_, ?_⟩
  · refine ⟨by simp, hfit'.1, hfit'.2, ?_, h.chain⟩
    intro c hc
    exact h.future_children f (by simp) c hc s (by simp)
  · intro f' hf'
    rcases List.mem_cons.mp hf' with rfl | hf'
    · constructor
      · exact ⟨by simp, by simp, by simp, by simp, by simp, by simp⟩
      · exact h.rest_valid s (by simp)
    · exact h.frames f' hf'
  · intro f' hf' s' hs'
    rcases List.mem_cons.mp hf' with rfl | hf'
    · exact (List.pairwise_cons.mp h.rest_pairwise).1 s' hs'
    · exact h.future_frames f' hf' s' (by simp [hs'])
  · intro f' hf' c hc s' hs'
    rcases List.mem_cons.mp hf' with rfl | hf'
    · exact absurd hc (by simp)
    · exact h.future_children f' hf' c hc s' (by simp [hs'])
  · intro s' hs'
    exact h.rest_valid s' (by simp [hs'])
  · exact (List.pairwise_cons.mp h.rest_pairwise).2

/-- One insertion of `_set` preserves the build invariant and consumes the
section at the head of the unprocessed list. -/
theorem insertAux_inv : ∀ (below : List BuildFrame) (f : BuildFrame)
    (s : SectionData) (rest' : List SectionData),
    BuildInv (f :: below) (s :: rest') →
    BuildInv (insertSectionAux f below s) rest' := by
  intro below
  induction below with
  | nil =>
    intro f s rest' h
    have hroot : f.sec = none := h.chain
    have hfit : fitsFrame s f = true := by
      unfold fitsFrame frameStart frameEnd
      rw [hroot]
      simp
    rw [insertSectionAux, if_pos hfit]
    exact push_inv f [] s rest' h hfit
  | cons g rest1 ih =>
    intro f s rest' h
    by_cases hfit : fitsFrame s f = true
    · rw [insertSectionAux, if_pos hfit]
      exact push_inv f (g :: rest1) s rest' h hfit
    · rw [insertSectionAux, if_neg hfit]
      obtain ⟨hfsec, hgs, hge, hgch, hchain1⟩ := h.chain
      rcases hfs : f.sec with _ | fs
      · exact absurd hfs hfsec
      · have hbef := h.future_frames f (by simp) s (by simp)
        rw [hfs] at hbef
        have hnofit : fs.endLine < s.startLine := by
          rcases hbef with hlt | hcontain
          · exact hlt
          · exfalso
            apply hfit
            unfold fitsFrame frameStart frameEnd
            rw [hfs]
            simp only [Bool.and_eq_true, decide_eq_true_eq]
            exact ⟨hcontain.1, hcontain.2⟩
        have hgete : (TreeNode.node f.sec f.children).getEndLine
            = some fs.endLine := by
          rw [hfs]
          rfl
        have hend : ∀ s' ∈ s :: rest',
            childEndBefore (TreeNode.node f.sec f.children) s'.startLine := by
          intro s' hs'
          unfold childEndBefore
          rw [hgete]
          rcases List.mem_cons.mp hs' with rfl | hs'
          · exact hnofit
          · have hsbef := (List.pairwise_cons.mp h.rest_pairwise).1 s' hs'
            have hsv := h.rest_valid s (by simp)
            rcases hsbef with h1 | h1 <;> omega
        exact ih (closeFrame f g) s rest'
          (closeFrame_inv f g rest1 (s :: rest') h hend)

/-- Folding `_set`'s insertion over all sections consumes them all. -/
theorem foldl_insert_inv : ∀ (l : List SectionData)
    (stack : List BuildFrame), BuildInv stack l →
    BuildInv (l.foldl insertSection stack) [] := by
  intro l
  induction l with
  | nil =>
    intro stack h
    exact h
  | cons s l1 ih =>
    intro stack h
    rcases hstack : stack with _ | ⟨f, below⟩
    · subst hstack
      exact absurd rfl h.nonempty
    · subst hstack
      show BuildInv (l1.foldl insertSection (insertSectionAux f below s)) []
      exact ih _ (insertAux_inv below f s l1 h)

/-- Collapsing an invariant-satisfying stack yields a well-formed
sectionless root covering [0, Infinity). -/
theorem collapse_inv : ∀ (below : List BuildFrame) (f : BuildFrame),
    BuildInv (f :: below) [] →
    NodeInv 0 none (collapseAux f below) ∧
      (collapseAux f below).sec = none := by
  intro below
  induction below with
  | nil =>
    intro f h
    have hroot : f.sec = none := h.chain
    constructor
    · have hni := frameInv_node f (h.frames f (by simp)).1
      have h1 : frameStart f = 0 := by
        unfold frameStart
        rw [hroot]
      have h2 : frameEnd f = none := by
        unfold frameEnd
        rw [hroot]
      rw [h1, h2] at hni
      exact hni
    · exact hroot
  | cons g rest1 ih =>
    intro f h
    have hc := closeFrame_inv f g rest1 [] h (by intro s' hs'; simp at hs')
    exact ih (closeFrame f g) hc

/-- A section already placed somewhere in the open stack. -/
def StackMem (t : SectionData) (stack : List BuildFrame) : Prop :=
  ∃ f ∈ stack, f.sec = some t ∨ ∃ c ∈ f.children, InTree t c

/-- Subtree membership at a destructured node, both directions. -/
theorem inTree_node_iff (t : SectionData) (sec : Option SectionData)
    (children : List TreeNode) :
    InTree t (TreeNode.node sec children) ↔
      sec = some t ∨ ∃ c ∈ children, InTree t c := by
  constructor
  · exact inTree_inv
  · intro h
    rcases h with h | ⟨c, hc, hin⟩
    · rw [h]
      exact InTree.self t children
    · exact InTree.child t sec children c hc hin

/-- Closing the top frame moves its sections into the frame below without
gaining or losing any. -/
theorem stackMem_closeFrame (t : SectionData) (f g : BuildFrame)
    (rest1 : List BuildFrame) :
    StackMem t (closeFrame f g :: rest1) ↔ StackMem t (f :: g :: rest1) := by
  unfold StackMem
  constructor
  · rintro ⟨f', hf', hP⟩
    rcases List.mem_cons.mp hf' with rfl | hf'
    · rcases hP with hsec | ⟨c, hc, hin⟩
      · exact ⟨g, by simp, Or.inl hsec⟩
      · rcases List.mem_append.mp hc with hc | hc
        · exact ⟨g, by simp, Or.inr ⟨c, hc, hin⟩⟩
        · have hcn : c = TreeNode.node f.sec f.children := by simpa using hc
          subst hcn
          rcases inTree_inv hin with hsec | ⟨d, hd, hind⟩
          · exact ⟨f, by simp, Or.inl hsec⟩
          · exact ⟨f, by simp, Or.inr ⟨d, hd, hind⟩⟩
    · exact ⟨f', by simp [hf'], hP⟩
  · rintro ⟨f', hf', hP⟩
    rcases List.mem_cons.mp hf' with rfl | hf'
    · refine ⟨closeFrame f' g, by simp,
        Or.inr ⟨TreeNode.node f'.sec f'.children, by simp [closeFrame], ?_⟩⟩
      rcases hP with hsec | ⟨c, hc, hin⟩
      · rw [hsec]
        exact InTree.self t f'.children
      · exact InTree.child t f'.sec f'.children c hc hin
    · rcases List.mem_cons.mp hf' with rfl | hf'
      · refine ⟨closeFrame f f', by simp, ?_⟩
        rcases hP with hsec | ⟨c, hc, hin⟩
        · exact Or.inl hsec
        · refine Or.inr ⟨c, ?_, hin⟩
          show c ∈ f'.children ++ [TreeNode.node f.sec f.children]
          exact List.mem_append.mpr (Or.inl hc)
      · exact ⟨f', by simp [hf'], hP⟩

/-- One insertion adds exactly the inserted section to the stack's
sections. -/
theorem stackMem_push (t s : SectionData) (stack : List BuildFrame) :
    StackMem t ({ sec := some s, children := [] } :: stack) ↔
      StackMem t stack ∨ t = s := by
  unfold StackMem
  constructor
  · rintro ⟨f', hf', hP⟩
    rcases List.mem_cons.mp hf' with rfl | hf'
    · rcases hP with hsec | ⟨c, hc, _⟩
      · right
        exact (Option.some.inj hsec).symm
      · exact absurd hc (by simp)
    · exact Or.inl ⟨f', hf', hP⟩
  · rintro (⟨f', hf', hP⟩ | rfl)
    · exact ⟨f', List.mem_cons_of_mem _ hf', hP⟩
    · exact ⟨{ sec := some t, children := [] }, by simp, Or.inl rfl⟩

/-- `_set`'s insertion adds exactly the inserted section. -/
theorem stackMem_insertAux (t s : SectionData) :
    ∀ (below : List BuildFrame) (f : BuildFrame),
      StackChain (f :: below) →
      (StackMem t (insertSectionAux f below s) ↔
        StackMem t (f :: below) ∨ t = s) := by
  intro below
  induction below with
  | nil =>
    intro f hchain
    have hroot : f.sec = none := hchain
    have hfit : fitsFrame s f = true := by
      unfold fitsFrame frameStart frameEnd
      rw [hroot]
      simp
    rw [insertSectionAux, if_pos hfit]
    exact stackMem_push t s [f]
  | cons g rest1 ih =>
    intro f hchain
    by_cases hfit : fitsFrame s f = true
    · rw [insertSectionAux, if_pos hfit]
      exact stackMem_push t s (f :: g :: rest1)
    · rw [insertSectionAux, if_neg hfit]
      have hchain1 := stackChain_closeFrame f g rest1 hchain
      show StackMem t (insertSectionAux (closeFrame f g) rest1 s) ↔
        StackMem t (f :: g :: rest1) ∨ t = s
      rw [ih (closeFrame f g) hchain1, stackMem_closeFrame]

/-- Folding all insertions places exactly the given sections. -/
theorem stackMem_foldl (t : SectionData) :
    ∀ (l : List SectionData) (stack : List BuildFrame), BuildInv stack l →
      (StackMem t (l.foldl insertSection stack) ↔
        StackMem t stack ∨ t ∈ l) := by
  intro l
  induction l with
  | nil =>
    intro stack h
    simp
  | cons s l1 ih =>
    intro stack h
    rcases hstack : stack with _ | ⟨f, below⟩
    · subst hstack
      exact absurd rfl h.nonempty
    · subst hstack
      have h1 := insertAux_inv below f s l1 h
      have hmem := stackMem_insertAux t s below f h.chain
      show StackMem t (l1.foldl insertSection (insertSectionAux f below s)) ↔
        StackMem t (f :: below) ∨ t ∈ s :: l1
      rw [ih _ h1, hmem]
      constructor
      · rintro ((hm | rfl) | hl)
        · exact Or.inl hm
        · right
          simp
        · right
          exact List.mem_cons_of_mem _ hl
      · rintro (hm | hl)
        · exact Or.inl (Or.inl hm)
        · rcases List.mem_cons.mp hl with rfl | hl
          · exact Or.inl (Or.inr rfl)
          · exact Or.inr hl

/-- Collapsing the stack preserves its sections. -/
theorem inTree_collapseAux (t : SectionData) :
    ∀ (below : List BuildFrame) (f : BuildFrame),
      InTree t (collapseAux f below) ↔ StackMem t (f :: below) := by
  intro below
  induction below with
  | nil =>
    intro f
    show InTree t (TreeNode.node f.sec f.children) ↔ _
    rw [inTree_node_iff]
    unfold StackMem
    constructor
    · rintro (h | h)
      · exact ⟨f, by simp, Or.inl h⟩
      · exact ⟨f, by simp, Or.inr h⟩
    · rintro ⟨f', hf', hP⟩
      have hff : f' = f := by simpa using hf'
      subst hff
      exact hP
  | cons g rest1 ih =>
    intro f
    show InTree t (collapseAux (closeFrame f g) rest1) ↔ _
    rw [ih (closeFrame f g), stackMem_closeFrame]

/-- The bare root frame satisfies the invariant against any valid,
document-ordered section list. -/
theorem buildInv_init (l : List SectionData)
    (hvalid : ∀ s ∈ l, s.startLine ≤ s.endLine)
    (hpair : l.Pairwise SecBefore) :
    BuildInv [{ sec := none, children := [] }] l := by
  refine ⟨by simp, rfl, ?_, ?_, ?_, hvalid, hpair⟩
  · intro f hf
    have hfr : f = { sec := none, children := [] } := by simpa using hf
    subst hfr
    constructor
    · exact ⟨by simp, by simp, by simp, by simp, by simp, by simp⟩
    · trivial
  · intro f hf s' hs'
    have hfr : f = { sec := none, children := [] } := by simpa using hf
    subst hfr
    trivial
  · intro f hf c hc s' hs'
    have hfr : f = { sec := none, children := [] } := by simpa using hf
    subst hfr
    exact absurd hc (by simp)

instance (a b : SectionData) : Decidable (SecBefore a b) := by
  unfold SecBefore
  infer_instance

/-- C8: for every tree built by `_set` from sections with valid ranges that
are pairwise non-overlapping or properly nested, presented in document
order, `find(line)` returns `none` when the line lies outside all sections,
and otherwise returns a section of the list that contains the line and is
deepest: it is contained in every listed section containing the line. -/
theorem lineRangeTree_find_deepest (l : List SectionData)
    (hvalid : ∀ s ∈ l, s.startLine ≤ s.endLine)
    (hnested : l.Pairwise SecBefore) (line : Nat) :
    ((∀ s ∈ l, ¬ s.containsLine line) →
      LineRangeTree_find (LineRangeTree_set l) line = none) ∧
    (∀ s0 ∈ l, s0.containsLine line →
      ∃ r, LineRangeTree_find (LineRangeTree_set l) line = some r ∧
        r ∈ l ∧ r.containsLine line ∧
        ∀ t ∈ l, t.containsLine line →
          t.startLine ≤ r.startLine ∧ r.endLine ≤ t.endLine) := by
  have hinit := buildInv_init l hvalid hnested
  have hfold := foldl_insert_inv l _ hinit
  rcases hstack : l.foldl insertSection [{ sec := none, children := [] }]
    with _ | ⟨f, below⟩
  · rw [hstack] at hfold
    exact absurd rfl hfold.nonempty
  · rw [hstack] at hfold
    obtain ⟨hroot_inv, hroot_sec⟩ := collapse_inv below f hfold
    have hmem2 : ∀ t : SectionData, StackMem t (f :: below) ↔ t ∈ l := by
      intro t
      rw [← hstack, stackMem_foldl t l _ hinit]
      constructor
      · rintro (⟨f', hf', hP⟩ | hl)
        · have hfr : f' = { sec := none, children := [] } := by
            simpa using hf'
          subst hfr
          rcases hP with hs | ⟨c, hc, _⟩
          · exact absurd hs (by simp)
          · exact absurd hc (by simp)
        · exact hl
      · exact fun hl => Or.inr hl
    have hmem3 : ∀ t : SectionData, InTree t (collapseAux f below) ↔ t ∈ l :=
      fun t => (inTree_collapseAux t below f).trans (hmem2 t)
    rcases hnode : collapseAux f below with ⟨nsec, nch⟩
    rw [hnode] at hroot_inv hroot_sec hmem3
    have hnsec : nsec = none := hroot_sec
    subst hnsec
    have htree2 : LineRangeTree_set l = TreeNode.node none nch := by
      unfold LineRangeTree_set
      rw [hstack]
      exact hnode
    have hdeep := findLoop_deepest line hroot_inv (by trivial)
    cases hroot_inv with
    | mk _ _ _ _ hsec0 hlo0 hhi0 hse0 hrec0 hsorted0 =>
      constructor
      · intro hns
        have hstay : findLoop line (TreeNode.node none nch) =
            TreeNode.node none nch := by
          apply hdeep.1
          intro c hc
          rcases section_node_cases c (hsec0 c hc) with ⟨cs, cch, hceq, _, _⟩
          rw [hceq, nodeContains_section]
          apply hns
          apply (hmem3 cs).mp
          refine InTree.child cs none nch c hc ?_
          rw [hceq]
          exact InTree.self cs cch
        unfold LineRangeTree_find
        rw [htree2, hstay]
        rfl
      · intro s0 hs0 hcon0
        have hs0t : InTree s0 (TreeNode.node none nch) := (hmem3 s0).mpr hs0
        rcases inTree_inv hs0t with hfalse | ⟨c, hc, hins0⟩
        · exact absurd hfalse (by simp)
        · have hccon : nodeContains c line :=
            child_contains_of_inTree (hrec0 c hc) hins0 hcon0
          rcases hdeep.2 c hc hccon with ⟨rs, hr1, hr2, hr3, _, _, hr6⟩
          refine ⟨rs, ?_, (hmem3 rs).mp hr2, hr3, ?_⟩
          · unfold LineRangeTree_find
            rw [htree2]
            exact hr1
          · intro t htl htcon
            exact hr6 t ((hmem3 t).mpr htl) htcon

/-- C8 witness: with sections [0,4] and [5,9], find(3) = [0,4],
find(7) = [5,9], find(10) = none. -/
theorem lineRangeTree_find_deepest_witness :
    LineRangeTree_find (LineRangeTree_set
      [⟨0, 4, true⟩, ⟨5, 9, true⟩]) 3 = some ⟨0, 4, true⟩ ∧
    LineRangeTree_find (LineRangeTree_set
      [⟨0, 4, true⟩, ⟨5, 9, true⟩]) 7 = some ⟨5, 9, true⟩ ∧
    LineRangeTree_find (LineRangeTree_set
      [⟨0, 4, true⟩, ⟨5, 9, true⟩]) 10 = none := by
  refine ⟨?_, ?_, ?_⟩
  · rcases (lineRangeTree_find_deepest [⟨0, 4, true⟩, ⟨5, 9, true⟩]
      (by decide) (by decide) 3).2 ⟨0, 4, true⟩ (by decide) (by decide)
      with ⟨r, hfind, hrmem, hrcon, _⟩
    have hrA : r = ⟨0, 4, true⟩ := by
      rcases List.mem_cons.mp hrmem with h | h
      · exact h
      · have hB : r = ⟨5, 9, true⟩ := by simpa using h
        rw [hB] at hrcon
        exact absurd hrcon (by decide)
    rw [hrA] at hfind
    exact hfind
  · rcases (lineRangeTree_find_deepest [⟨0, 4, true⟩, ⟨5, 9, true⟩]
      (by decide) (by decide) 7).2 ⟨5, 9, true⟩ (by decide) (by decide)
      with ⟨r, hfind, hrmem, hrcon, _⟩
    have hrB : r = ⟨5, 9, true⟩ := by
      rcases List.mem_cons.mp hrmem with h | h
      · rw [h] at hrcon
        exact absurd hrcon (by decide)
      · simpa using h
    rw [hrB] at hfind
    exact hfind
  · exact (lineRangeTree_find_deepest [⟨0, 4, true⟩, ⟨5, 9, true⟩]
      (by decide) (by decide) 10).1 (by decide)

/-- The capabilities that can be removed for one evaluation
(MVMInterface.ts). -/
inductive Capability where
  | InteractiveCommandLine
  | Swing
  | ComplexSwing
  | LocalClient
  | WebWindow
  | ModalDialogs
  | Debugging
deriving DecidableEq

/-- A heterogeneous argument of an feval call. -/
inductive MValue where
  | str (s : Text)
  | num (n : Int)
  | bool (b : Bool)
  | ranges (r : List (Nat × Nat))
deriving DecidableEq

/-- The feval-request notification payload (MVMInterface.ts), without the
per-send generated request id, which is irrelevant here. -/
structure FEvalRequest where
  functionName : Text
  nargout : Nat
  args : List MValue
  capabilitiesToRemove : Option (List Capability)
deriving DecidableEq

/-- Modelled from the spec: the five-parameter `feval` revision taken by
`handleRunSection` registers one request and sends exactly one
feval-request notification `{requestId, functionName, nargout, args,
capabilitiesToRemove}` carrying its capabilitiesToRemove argument; the
boolean fourth parameter does not alter the submission. -/
def feval5 (functionName : Text) (nargout : Nat) (args : List MValue)
    (_flag : Bool) (capabilitiesToRemove : Option (List Capability)) :
    List FEvalRequest :=
  [{ functionName := functionName, nargout := nargout, args := args,
     capabilitiesToRemove := capabilitiesToRemove }]

/-- `path.basename`: the final path segment. -/
def pathBasename (p : Text) : Text :=
  ((p.reverse).takeWhile (fun c => c != '/' && c != '\\')).reverse

/-- Split on `\r\n`, `\r` or `\n`, as the regex in `handleRunSection`. -/
def splitLinesRN : Text → List Text
  | [] => [[]]
  | '\r' :: '\n' :: rest => [] :: splitLinesRN rest
  | '\r' :: rest => [] :: splitLinesRN rest
  | '\n' :: rest => [] :: splitLinesRN rest
  | c :: rest =>
    match splitLinesRN rest with
    | [] => [[c]]
    | l :: ls => (c :: l) :: ls

/-- The releases taking the old (offset, length) protocol; the strict
switch means a null release matches none of the labels (`case undefined`
only matches undefined) and falls to the default, newer protocol. -/
def isOldRelease (release : Option Text) : Bool :=
  match release with
  | none => false
  | some r =>
    r == "R2021b".toList || r == "R2022a".toList ||
      r == "R2022b".toList || r == "R2023a".toList

/-- The old-protocol argument list: character offset and length of the
section computed from the split lines. -/
def oldReleaseArgs (fileName filePath text : Text)
    (lineRange : SectionData) : List MValue :=
  let splitLines := splitLinesRN text
  let startPosition :=
    (List.intercalate ['\n'] (splitLines.take lineRange.startLine)).length + 1
  let executionLength :=
    (List.intercalate ['\n']
      ((splitLines.take (lineRange.endLine + 1)).drop
        lineRange.startLine)).length + 1
  [MValue.str fileName, MValue.str filePath, MValue.str text,
    MValue.num (startPosition : Int), MValue.num (executionLength : Int),
    MValue.num (-1), MValue.str "vscode".toList, MValue.str [],
    MValue.bool false, MValue.bool false]

/-- The newer-protocol argument list: one-based start/end lines plus all
section boundaries. -/
def newReleaseArgs (fileName filePath text : Text)
    (lineRange : SectionData)
    (sectionLineRanges : List (Nat × Nat)) : List MValue :=
  [MValue.str fileName, MValue.str filePath, MValue.str text,
    MValue.num ((lineRange.startLine : Int) + 1),
    MValue.num ((lineRange.endLine : Int) + 1),
    MValue.num (-1), MValue.str "vscode".toList, MValue.str [],
    MValue.bool false, MValue.bool false,
    MValue.ranges sectionLineRanges]

/-- The editor state read by `handleRunSection`. -/
structure EditorState where
  languageId : Text
  fileName : Text
  isUntitled : Bool
  text : Text
  selectionLine : Nat

/-- The per-file section data read from the section model. -/
structure SectionRawData where
  isDirty : Option Bool
  sectionsTree : Option TreeNode
  sectionRanges : List (Nat × Nat)

/-- `handleRunSection`: the guard chain and the release-dependent argument
switch, returning the feval submissions it makes (empty on every early
return).  The ready flag models whether awaiting the ready promise
succeeded. -/
def handleRunSection (editor : Option EditorState)
    (sectionData : Option SectionRawData) (ready : Bool)
    (release : Option Text) : List FEvalRequest :=
  match editor with
  | none => []
  | some ed =>
    if ed.languageId ≠ "matlab".toList then []
    else
      match sectionData with
      | none => []
      | some sd =>
        if sd.isDirty.getD true then []
        else
          match sd.sectionsTree with
          | none => []
          | some tree =>
            let fileName := pathBasename ed.fileName
            let filePath :=
              if ed.isUntitled then fileName else pathBasename ed.fileName
            let sectionLineRanges :=
              sd.sectionRanges.map (fun p => (p.1 + 1, p.2 + 1))
            match LineRangeTree_find tree ed.selectionLine with
            | none => []
            | some lineRange =>
              if ready then
                feval5 "matlab.internal.editor.evaluateCode".toList 0
                  (if isOldRelease release then
                    oldReleaseArgs fileName filePath ed.text lineRange
                  else
                    newReleaseArgs fileName filePath ed.text lineRange
                      sectionLineRanges)
                  true (some [Capability.Debugging])
              else []

/-- Every submission list of `handleRunSection` is empty or a single
feval of the section evaluatee with the Debugging capability removed. -/
theorem runSection_shape (editor : Option EditorState)
    (sectionData : Option SectionRawData) (ready : Bool)
    (release : Option Text) :
    handleRunSection editor sectionData ready release = [] ∨
    ∃ args, handleRunSection editor sectionData ready release =
      feval5 "matlab.internal.editor.evaluateCode".toList 0 args true
        (some [Capability.Debugging]) := by
  rcases editor with _ | ed
  · exact Or.inl rfl
  by_cases hlang : ed.languageId ≠ "matlab".toList
  · left
    simp only [handleRunSection, if_pos hlang]
  rcases sectionData with _ | sd
  · left
    simp only [handleRunSection, if_neg hlang]
  by_cases hdirty : sd.isDirty.getD true = true
  · left
    simp only [handleRunSection, if_neg hlang, if_pos hdirty]
  rcases htree : sd.sectionsTree with _ | tree
  · left
    simp only [handleRunSection, if_neg hlang, if_neg hdirty, htree]
  rcases hfind : LineRangeTree_find tree ed.selectionLine with _ | lineRange
  · left
    simp only [handleRunSection, if_neg hlang, if_neg hdirty, htree, hfind]
  rcases hready : ready with _ | _
  · left
    simp only [handleRunSection, if_neg hlang, if_neg hdirty, htree, hfind,
      if_false, Bool.false_eq_true]
  · right
    refine ⟨if isOldRelease release then
        oldReleaseArgs (pathBasename ed.fileName)
          (if ed.isUntitled then pathBasename ed.fileName
            else pathBasename ed.fileName) ed.text lineRange
      else
        newReleaseArgs (pathBasename ed.fileName)
          (if ed.isUntitled then pathBasename ed.fileName
            else pathBasename ed.fileName) ed.text lineRange
          (sd.sectionRanges.map (fun p => (p.1 + 1, p.2 + 1))), ?_⟩
    simp only [handleRunSection, if_neg hlang, if_neg hdirty, htree, hfind,
      if_true]

/-- C9: every Run Section invocation that reaches evaluation submits
exactly one evaluation call, and the request it sends carries a
capabilitiesToRemove field equal to the list containing the Debugging
capability. -/
theorem runSection_single_eval_no_debugging (editor : Option EditorState)
    (sectionData : Option SectionRawData) (ready : Bool)
    (release : Option Text)
    (h : handleRunSection editor sectionData ready release ≠ []) :
    ∃ r, handleRunSection editor sectionData ready release = [r] ∧
      r.functionName = "matlab.internal.editor.evaluateCode".toList ∧
      r.capabilitiesToRemove = some [Capability.Debugging] := by
  rcases runSection_shape editor sectionData ready release with he | ⟨args, he⟩
  · exact absurd he h
  · exact ⟨_, he, rfl, rfl⟩

/-- C9 witness: a concrete Run Section invocation that reaches evaluation
submits exactly one call, with capabilitiesToRemove = [Debugging]. -/
theorem runSection_single_eval_no_debugging_witness :
    (handleRunSection
        (some { languageId := "matlab".toList, fileName := "demo.m".toList,
                isUntitled := false, text := "x = 1\ny = 2".toList,
                selectionLine := 0 })
        (some { isDirty := some false,
                sectionsTree := some (TreeNode.node none
                  [TreeNode.node (some ⟨0, 4, true⟩) []]),
                sectionRanges := [(0, 4)] }) true none).map
      FEvalRequest.capabilitiesToRemove = [some [Capability.Debugging]] ∧
    (handleRunSection
        (some { languageId := "matlab".toList, fileName := "demo.m".toList,
                isUntitled := false, text := "x = 1\ny = 2".toList,
                selectionLine := 0 })
        (some { isDirty := some false,
                sectionsTree := some (TreeNode.node none
                  [TreeNode.node (some ⟨0, 4, true⟩) []]),
                sectionRanges := [(0, 4)] }) true none).length = 1 := by
  have h1 : searchByLine 0 (TreeNode.node none
      [TreeNode.node (some ⟨0, 4, true⟩) []])
      = some (TreeNode.node (some ⟨0, 4, true⟩) []) := by
    unfold searchByLine
    rw [searchLoop]
    simp [leEndO, TreeNode.getStartLine, TreeNode.getEndLine,
      TreeNode.children]
  have h2 : searchByLine 0 (TreeNode.node (some ⟨0, 4, true⟩) []) = none := by
    unfold searchByLine
    rw [searchLoop]
    simp [TreeNode.children]
  have hfind : LineRangeTree_find (TreeNode.node none
      [TreeNode.node (some ⟨0, 4, true⟩) []]) 0 = some ⟨0, 4, true⟩ := by
    unfold LineRangeTree_find
    rw [findLoop_descend h1, findLoop_stop h2]
    rfl
  have hne : handleRunSection
      (some { languageId := "matlab".toList, fileName := "demo.m".toList,
              isUntitled := false, text := "x = 1\ny = 2".toList,
              selectionLine := 0 })
      (some { isDirty := some false,
              sectionsTree := some (TreeNode.node none
                [TreeNode.node (some ⟨0, 4, true⟩) []]),
              sectionRanges := [(0, 4)] }) true none ≠ [] := by
    simp only [handleRunSection, hfind, isOldRelease, feval5]
    simp
  rcases runSection_single_eval_no_debugging _ _ _ _ hne
    with ⟨r, hr1, hr2, hr3⟩
  constructor
  · rw [hr1]
    simp [hr3]
  · rw [hr1]
    rfl
